import Mathlib

/-!
# Verification of `postgresql_tune.py`

A shallow embedding of the Ansible module `postgresql_tune.py` (an adaptation of
the pgtune rules), together with proofs about the spec's claims.

The embedding covers:
* `format_size` — the kB/MB/GB pretty-printer;
* `get_pgtune_raw` / `get_pgtune_config` — the tuning calculator
  (`get_pgtune_config` in the source: parameter validation, the numeric
  parameter computation and the final size-formatting pass);
* `merge` — the configuration merge step of `write_optimizations`
  (the per-line regex match, in-place rewrite and append phase);
* `writeOptPrefix` — the head of `write_optimizations` (path checks, file read,
  calculator invocation), used to settle ordering claims about errors.

Modelling conventions:
* Python 2 integer division on non-negative ints is `Nat` division; Python
  floats are modelled as exact rationals `ℚ` (the float expressions in the
  source involve only small integers, halves, and one final `math.floor`);
* the Python dict `config` is modelled as a function `PKey → Option PgValue`
  keyed by an enumeration of the parameter names occurring in the source;
* `LooseVersion` comparison of dotted numeric versions is component-wise
  list comparison on `List ℕ` (Python list comparison semantics);
* the merge step works on lines as `List Char`; the parameter set handed to it
  is an association list of already-stringified keys and values, because the
  source only ever uses `str(pgtune_config[key])` and
  `'{} = {}'.format(key, value)` there;
* `fail_json` aborts the module, so fallible functions return `Except String`
  (calculator) or `Option` (merge, where the only failure is the
  `dict.pop(key)` `KeyError`).
-/

namespace PgTune

/-- Operating system type (`os_type` module option). -/
inductive OsType | linux | windows
deriving DecidableEq, Inhabited

/-- Database usage type (`db_type` module option). -/
inductive DbType | desktop | dw | mixed | oltp | web
deriving DecidableEq, Inhabited

/-- Hard drive type (`harddrive_type` module option). -/
inductive HdType | hdd | ssd | san
deriving DecidableEq, Inhabited

/-- The parameter names that `get_pgtune_config` can put into `config`. -/
inductive PKey
  | max_connections
  | shared_buffers
  | effective_cache_size
  | work_mem
  | maintenance_work_mem
  | checkpoint_segments
  | min_wal_size
  | max_wal_size
  | checkpoint_completion_target
  | wal_buffers
  | default_statistics_target
  | random_page_cost
  | effective_io_concurrency
  | max_worker_processes
  | max_parallel_workers_per_gather
  | max_parallel_workers
deriving DecidableEq, Inhabited

/-- A value stored in the `config` dict: a number (int or float, modelled as an
exact rational) before the formatting pass, or a formatted size string after. -/
inductive PgValue
  | num (q : ℚ)
  | str (s : String)
deriving DecidableEq, Inhabited

/-- The `config` dict of `get_pgtune_config`. -/
def Cfg : Type := PKey → Option PgValue

/-- Dict assignment `config[k] = v`. -/
def cfgSet (c : Cfg) (k : PKey) (v : PgValue) : Cfg :=
  fun k' => if k' = k then some v else c k'

/-- The typed input of the calculator (module parameters relevant to
`get_pgtune_config`).  `db_version` is the version string parsed into its
dotted numeric components, as `LooseVersion` does for such strings. -/
structure TuningInput where
  db_version : List ℕ
  os_type : OsType
  db_type : DbType
  /-- total memory in MB -/
  total_memory : ℕ
  connections : Option ℤ
  harddrive_type : HdType
  cpus : ℤ
deriving DecidableEq, Inhabited

/-- `format_size` from the source: pretty-format a size in kB.

```python
if size % (1 << 20) == 0: value = size >> 20; unit = 'GB'
elif size % (1 << 10) == 0: value = size >> 10; unit = 'MB'
else: value = size; unit = 'kB'
return '{}{}'.format(int(value), unit)
``` -/
def format_size (size : ℕ) : String :=
  if size % (1 <<< 20) = 0 then toString (size >>> 20) ++ "GB"
  else if size % (1 <<< 10) = 0 then toString (size >>> 10) ++ "MB"
  else toString size ++ "kB"

/-- Python list comparison `a < b` on the integer component lists that
`LooseVersion` produces for dotted numeric version strings. -/
def verLt : List ℕ → List ℕ → Bool
  | [], [] => false
  | [], _ :: _ => true
  | _ :: _, [] => false
  | a :: as, b :: bs => a < b || (a = b && verLt as bs)

/-- `LooseVersion(x) >= LooseVersion(y)` for parsed dotted numeric versions. -/
def verGe (a b : List ℕ) : Bool := !verLt a b

/-- Split a character list at `'.'` separators. -/
def splitDots : List Char → List (List Char)
  | [] => [[]]
  | c :: cs =>
    if c = '.' then [] :: splitDots cs
    else match splitDots cs with
      | [] => [[c]]
      | l :: ls => (c :: l) :: ls

/-- The numeric value of a digit run. -/
def digitsToNat (l : List Char) : ℕ :=
  l.foldl (fun acc c => 10 * acc + (c.toNat - 48)) 0

/-- Parse a dotted numeric version string into its integer components, as
`LooseVersion` does for such strings. -/
def parseVersion (s : String) : List ℕ :=
  (splitDots s.data).map digitsToNat

/-- The `max_connections` defaulting table (used when `connections` is not
supplied): desktop=10, dw=20, mixed=100, oltp=300, web=200. -/
def connTable : DbType → ℤ
  | .desktop => 10
  | .dw => 20
  | .mixed => 100
  | .oltp => 300
  | .web => 200

/-- The keys excluded from the size-formatting pass at the end of
`get_pgtune_config`. -/
def neverSized : PKey → Bool
  | .max_connections | .checkpoint_segments | .checkpoint_completion_target
  | .default_statistics_target | .random_page_cost | .effective_io_concurrency
  | .max_worker_processes | .max_parallel_workers_per_gather
  | .max_parallel_workers => true
  | _ => false

/-- The advisory warnings of `get_pgtune_config`. -/
def warningsOf (i : TuningInput) : List String :=
  (if i.total_memory < 256 then ["Not optimal for low memory systems"] else []) ++
  (if i.total_memory > 100 <<< 10 then ["Not optimal for very high memory systems"] else [])

/-- The body of `get_pgtune_config` after validation: every `config[...] = ...`
assignment of the source, in source order.  `mc` is the validated
`max_connections` value.  Conditional reassignments of the source
(`if cond: config[k] = cap`) appear as an unconditional re-assignment of the
conditional expression, which yields the same dict. -/
def buildConfig (i : TuningInput) (mc : ℤ) : Cfg :=
  let tmkb : ℕ := i.total_memory <<< 10
  let cfg : Cfg := fun _ => none
  let cfg := cfgSet cfg .max_connections (.num mc)
  -- shared_buffers
  let sb0 : ℕ := if i.db_type = .desktop then tmkb / 16 else tmkb / 4
  let cfg := cfgSet cfg .shared_buffers (.num sb0)
  -- Limit shared_buffers to 512MB on Windows
  let sb : ℕ := if i.os_type = .windows ∧ sb0 > 512 <<< 10 then 512 <<< 10 else sb0
  let cfg := cfgSet cfg .shared_buffers (.num sb)
  -- effective_cache_size
  let ecs : ℕ := if i.db_type = .desktop then tmkb / 4 else 3 * tmkb / 4
  let cfg := cfgSet cfg .effective_cache_size (.num ecs)
  -- work_mem
  let mpwpg : ℤ := ⌈(0.5 : ℚ) * (i.cpus : ℚ)⌉
  let work_mem : ℚ := ((tmkb : ℚ) - (sb : ℚ)) / ((3 : ℚ) * (mc : ℚ)) / (mpwpg : ℚ)
  let cfg := cfgSet cfg .work_mem
    (.num (if i.db_type = .desktop then work_mem / 6
           else if i.db_type = .dw ∨ i.db_type = .mixed then work_mem / 2
           else work_mem))
  let cfg := cfgSet cfg .work_mem (.num (⌊work_mem⌋ : ℚ))
  let cfg := if ⌊work_mem⌋ < 64 then cfgSet cfg .work_mem (.num 64) else cfg
  -- maintenance_work_mem
  let mwm0 : ℕ := if i.db_type = .dw then tmkb / 8 else tmkb / 16
  let cfg := cfgSet cfg .maintenance_work_mem (.num mwm0)
  -- Cap maintenance RAM at 2GB on servers with lots of memory
  let mwm : ℕ := if mwm0 > 2 <<< 20 then 2 <<< 20 else mwm0
  let cfg := cfgSet cfg .maintenance_work_mem (.num mwm)
  -- checkpoint_segments / min_wal_size + max_wal_size (version-gated at 9.5)
  let cfg :=
    if verLt i.db_version [9, 5] then
      cfgSet cfg .checkpoint_segments
        (.num (if i.db_type = .desktop then 3
               else if i.db_type = .dw then 128
               else if i.db_type = .oltp then 64 else 32))
    else
      let p : ℕ × ℕ :=
        if i.db_type = .desktop then (100 <<< 10, 1024 <<< 10)
        else if i.db_type = .dw then (4 <<< 20, 8 <<< 20)
        else if i.db_type = .oltp then (2 <<< 20, 4 <<< 20)
        else (1 <<< 20, 2 <<< 20)
      cfgSet (cfgSet cfg .min_wal_size (.num p.1)) .max_wal_size (.num p.2)
  -- checkpoint_completion_target
  let cfg := cfgSet cfg .checkpoint_completion_target
    (.num (if i.db_type = .desktop then 0.5
           else if i.db_type = .web then 0.7 else 0.9))
  -- wal_buffers: 3% of shared_buffers up to a maximum of 16MB
  let cfg :=
    if (cfg .shared_buffers).isSome then
      let wb0 : ℕ := 3 * sb / 100
      let cfg := cfgSet cfg .wal_buffers (.num wb0)
      let wb1 : ℕ := if wb0 > 16 <<< 10 then 16 <<< 10 else wb0
      let cfg := cfgSet cfg .wal_buffers (.num wb1)
      -- round upwards to an even 16MB if it is near that number
      let wb2 : ℕ := if 14 <<< 10 < wb1 ∧ wb1 < 16 <<< 10 then 16 <<< 10 else wb1
      cfgSet cfg .wal_buffers (.num wb2)
    else cfg
  -- default_statistics_target
  let cfg := cfgSet cfg .default_statistics_target
    (.num (if i.db_type = .dw then 500 else 100))
  -- random_page_cost
  let cfg := cfgSet cfg .random_page_cost
    (.num (if i.harddrive_type = .hdd then 4 else 1.1))
  -- effective_io_concurrency (omitted on windows)
  let cfg :=
    if i.os_type ≠ .windows then
      cfgSet cfg .effective_io_concurrency
        (.num (if i.harddrive_type = .hdd then 2
               else if i.harddrive_type = .ssd then 200 else 300))
    else cfg
  -- CPU parallelism (version-gated)
  let cfg :=
    if verGe i.db_version [9, 5] then
      if i.cpus > 1 then
        let cfg := cfgSet cfg .max_worker_processes (.num (i.cpus : ℚ))
        if verGe i.db_version [9, 6] then
          let cfg := cfgSet cfg .max_parallel_workers_per_gather (.num (mpwpg : ℚ))
          if verGe i.db_version [10] then
            cfgSet cfg .max_parallel_workers (.num (i.cpus : ℚ))
          else cfg
        else cfg
      else cfg
    else cfg
  cfg

/-- `get_pgtune_config` up to (but not including) the size-formatting pass:
validation of `connections` and `cpus` (in source order, via `fail_json`,
modelled as `Except.error`), then the numeric parameter computation. -/
def get_pgtune_raw (i : TuningInput) : Except String (Cfg × List String) :=
  match i.connections with
  | some c =>
    if c < 10 then
      .error "connections must be an integer greater than or equal to 10"
    else if i.cpus ≤ 0 ∨ i.cpus > 9999 then
      .error "cpus must be a strictly positive integer"
    else .ok (buildConfig i c, warningsOf i)
  | none =>
    if i.cpus ≤ 0 ∨ i.cpus > 9999 then
      .error "cpus must be a strictly positive integer"
    else .ok (buildConfig i (connTable i.db_type), warningsOf i)

/-- The final size-formatting pass of `get_pgtune_config`: every key not in the
`neverSized` whitelist is passed through `format_size`.  All values reaching
`format_size` in the source are non-negative ints, embedded here as integral
rationals, so `⌊q⌋.toNat` is the identity embedding of that int. -/
def formatPass (c : Cfg) : Cfg := fun k =>
  (c k).map fun v =>
    if neverSized k then v
    else match v with
      | .num q => .str (format_size (⌊q⌋).toNat)
      | .str s => .str s

/-- The full `get_pgtune_config`: validation, computation, formatting pass. -/
def get_pgtune_config (i : TuningInput) : Except String (Cfg × List String) :=
  (get_pgtune_raw i).map (fun p => (formatPass p.1, p.2))

/-- The computed numeric config of a run, `fun _ => none` on validation error. -/
def cfgRawOf (i : TuningInput) : Cfg :=
  match get_pgtune_raw i with
  | .ok p => p.1
  | .error _ => fun _ => none

/-- The final formatted config of a run, `fun _ => none` on validation error. -/
def cfgOf (i : TuningInput) : Cfg :=
  match get_pgtune_config i with
  | .ok p => p.1
  | .error _ => fun _ => none

/-- The validation predicate of `get_pgtune_config`: `connections`, when
given, is at least 10, and `cpus` lies in [1, 9999]. -/
def validInput (i : TuningInput) : Bool :=
  (match i.connections with
   | none => true
   | some c => decide (10 ≤ c)) && decide (1 ≤ i.cpus) && decide (i.cpus ≤ 9999)

/-- The `max_connections` value used by a valid run. -/
def mcOf (i : TuningInput) : ℤ :=
  match i.connections with
  | none => connTable i.db_type
  | some c => c

/-- Total memory in kB. -/
def tmkbOf (i : TuningInput) : ℕ := i.total_memory <<< 10

/-- The uncapped `shared_buffers` value in kB. -/
def sb0Of (i : TuningInput) : ℕ :=
  if i.db_type = .desktop then tmkbOf i / 16 else tmkbOf i / 4

/-- The `shared_buffers` value in kB, after the 512 MB Windows cap. -/
def sbOf (i : TuningInput) : ℕ :=
  if i.os_type = .windows ∧ sb0Of i > 512 <<< 10 then 512 <<< 10 else sb0Of i

/-- `max_parallel_workers_per_gather` = `int(math.ceil(0.5 * cpus))`. -/
def mpwpgOf (i : TuningInput) : ℤ := ⌈(0.5 : ℚ) * (i.cpus : ℚ)⌉

/-- First, a lookup applied to an `if` on configs distributes to the
branches. -/
theorem cfg_ite_apply (P : Prop) [Decidable P] (f g : Cfg) (k : PKey) :
    (if P then f else g) k = if P then f k else g k := by
  split <;> rfl

theorem cfgSet_self (c : Cfg) (k : PKey) (v : PgValue) : cfgSet c k v k = some v := by
  simp [cfgSet]

theorem cfgSet_ne (c : Cfg) (k k' : PKey) (v : PgValue) (h : k' ≠ k) :
    cfgSet c k v k' = c k' := by
  simp [cfgSet, h]

theorem ite_some_num (P : Prop) [Decidable P] (a b : ℚ) :
    (if P then some (PgValue.num a) else some (PgValue.num b)) =
      some (.num (if P then a else b)) := by
  split <;> rfl

theorem ite_fst {α β : Type} (P : Prop) [Decidable P] (a b : α × β) :
    (if P then a else b).1 = if P then a.1 else b.1 := by
  split <;> rfl

theorem ite_snd {α β : Type} (P : Prop) [Decidable P] (a b : α × β) :
    (if P then a else b).2 = if P then a.2 else b.2 := by
  split <;> rfl

/-- The `effective_cache_size` value in kB. -/
def ecsOf (i : TuningInput) : ℕ :=
  if i.db_type = .desktop then tmkbOf i / 4 else 3 * tmkbOf i / 4

/-- The quantity whose floor is stored as `work_mem`:
`(RAM - shared_buffers) / (max_connections * 3) / max_parallel_workers_per_gather`. -/
def wmBaseOf (i : TuningInput) (mc : ℤ) : ℚ :=
  ((tmkbOf i : ℚ) - (sbOf i : ℚ)) / ((3 : ℚ) * (mc : ℚ)) / ((mpwpgOf i : ℚ))

/-- The `maintenance_work_mem` value in kB, after the 2 GB cap. -/
def mwmOf (i : TuningInput) : ℕ :=
  let m0 : ℕ := if i.db_type = .dw then tmkbOf i / 8 else tmkbOf i / 16
  if m0 > 2 <<< 20 then 2 <<< 20 else m0

/-- `wal_buffers` before any cap: 3% of `shared_buffers` (integer division). -/
def wb0Of (i : TuningInput) : ℕ := 3 * sbOf i / 100

/-- `wal_buffers` after the 16 MB cap. -/
def wb1Of (i : TuningInput) : ℕ :=
  if wb0Of i > 16 <<< 10 then 16 <<< 10 else wb0Of i

/-- The final `wal_buffers` value: the capped value, rounded up to 16 MB when it
lies strictly between 14 MB and 16 MB. -/
def wbOf (i : TuningInput) : ℕ :=
  if 14 <<< 10 < wb1Of i ∧ wb1Of i < 16 <<< 10 then 16 <<< 10 else wb1Of i

theorem buildConfig_max_connections (i : TuningInput) (mc : ℤ) :
    buildConfig i mc .max_connections = some (.num mc) := by
  simp [buildConfig, cfgSet, cfg_ite_apply]

theorem buildConfig_shared_buffers (i : TuningInput) (mc : ℤ) :
    buildConfig i mc .shared_buffers = some (.num (sbOf i)) := by
  simp [buildConfig, cfgSet, cfg_ite_apply, sbOf, sb0Of, tmkbOf]

theorem buildConfig_effective_cache_size (i : TuningInput) (mc : ℤ) :
    buildConfig i mc .effective_cache_size = some (.num (ecsOf i)) := by
  simp [buildConfig, cfgSet, cfg_ite_apply, ecsOf, tmkbOf, ite_some_num]

theorem buildConfig_work_mem (i : TuningInput) (mc : ℤ) :
    buildConfig i mc .work_mem =
      some (.num ((max 64 ⌊wmBaseOf i mc⌋ : ℤ) : ℚ)) := by
  have h : buildConfig i mc .work_mem =
      some (.num (if ⌊wmBaseOf i mc⌋ < 64 then (64 : ℚ) else (⌊wmBaseOf i mc⌋ : ℚ))) := by
    simp [buildConfig, cfgSet, cfg_ite_apply, wmBaseOf, sbOf, sb0Of, tmkbOf, mpwpgOf,
      ite_some_num]
  rw [h]
  rcases lt_or_le ⌊wmBaseOf i mc⌋ 64 with h64 | h64
  · rw [if_pos h64, max_eq_left (le_of_lt h64)]
    norm_num
  · rw [if_neg (not_lt.mpr h64), max_eq_right h64]

theorem buildConfig_maintenance_work_mem (i : TuningInput) (mc : ℤ) :
    buildConfig i mc .maintenance_work_mem = some (.num (mwmOf i)) := by
  simp [buildConfig, cfgSet, cfg_ite_apply, mwmOf, tmkbOf, ite_some_num]

theorem buildConfig_checkpoint_segments (i : TuningInput) (mc : ℤ) :
    buildConfig i mc .checkpoint_segments =
      (if verLt i.db_version [9, 5] then
        some (.num (if i.db_type = .desktop then 3
               else if i.db_type = .dw then 128
               else if i.db_type = .oltp then 64 else 32))
       else none) := by
  simp [buildConfig, cfgSet, cfg_ite_apply]

theorem buildConfig_min_wal_size (i : TuningInput) (mc : ℤ) :
    buildConfig i mc .min_wal_size =
      (if verLt i.db_version [9, 5] then none
       else some (.num ((if i.db_type = .desktop then (100 <<< 10 : ℕ)
               else if i.db_type = .dw then 4 <<< 20
               else if i.db_type = .oltp then 2 <<< 20 else 1 <<< 20) : ℚ))) := by
  simp [buildConfig, cfgSet, cfg_ite_apply, ite_some_num, ite_fst, ite_snd]

theorem buildConfig_max_wal_size (i : TuningInput) (mc : ℤ) :
    buildConfig i mc .max_wal_size =
      (if verLt i.db_version [9, 5] then none
       else some (.num ((if i.db_type = .desktop then (1024 <<< 10 : ℕ)
               else if i.db_type = .dw then 8 <<< 20
               else if i.db_type = .oltp then 4 <<< 20 else 2 <<< 20) : ℚ))) := by
  simp [buildConfig, cfgSet, cfg_ite_apply, ite_some_num, ite_fst, ite_snd]

theorem buildConfig_checkpoint_completion_target (i : TuningInput) (mc : ℤ) :
    buildConfig i mc .checkpoint_completion_target =
      some (.num (if i.db_type = .desktop then 0.5
             else if i.db_type = .web then 0.7 else 0.9)) := by
  simp [buildConfig, cfgSet, cfg_ite_apply, ite_some_num]

theorem buildConfig_wal_buffers (i : TuningInput) (mc : ℤ) :
    buildConfig i mc .wal_buffers = some (.num (wbOf i)) := by
  simp [buildConfig, cfgSet, cfg_ite_apply, wbOf, wb1Of, wb0Of, sbOf, sb0Of, tmkbOf,
    ite_some_num]

theorem buildConfig_default_statistics_target (i : TuningInput) (mc : ℤ) :
    buildConfig i mc .default_statistics_target =
      some (.num (if i.db_type = .dw then 500 else 100)) := by
  simp [buildConfig, cfgSet, cfg_ite_apply, ite_some_num]

theorem buildConfig_random_page_cost (i : TuningInput) (mc : ℤ) :
    buildConfig i mc .random_page_cost =
      some (.num (if i.harddrive_type = .hdd then 4 else 1.1)) := by
  simp [buildConfig, cfgSet, cfg_ite_apply, ite_some_num]

theorem buildConfig_effective_io_concurrency (i : TuningInput) (mc : ℤ) :
    buildConfig i mc .effective_io_concurrency =
      (if i.os_type ≠ .windows then
        some (.num (if i.harddrive_type = .hdd then 2
               else if i.harddrive_type = .ssd then 200 else 300))
       else none) := by
  simp [buildConfig, cfgSet, cfg_ite_apply]

theorem buildConfig_max_worker_processes (i : TuningInput) (mc : ℤ) :
    buildConfig i mc .max_worker_processes =
      (if verGe i.db_version [9, 5] then
        (if i.cpus > 1 then some (.num (i.cpus : ℚ)) else none)
       else none) := by
  simp [buildConfig, cfgSet, cfg_ite_apply, verGe]

theorem buildConfig_max_parallel_workers_per_gather (i : TuningInput) (mc : ℤ) :
    buildConfig i mc .max_parallel_workers_per_gather =
      (if verGe i.db_version [9, 5] then
        (if i.cpus > 1 then
          (if verGe i.db_version [9, 6] then some (.num ((mpwpgOf i : ℤ) : ℚ)) else none)
         else none)
       else none) := by
  simp [buildConfig, cfgSet, cfg_ite_apply, verGe, mpwpgOf]

theorem buildConfig_max_parallel_workers (i : TuningInput) (mc : ℤ) :
    buildConfig i mc .max_parallel_workers =
      (if verGe i.db_version [9, 5] then
        (if i.cpus > 1 then
          (if verGe i.db_version [9, 6] then
            (if verGe i.db_version [10] then some (.num (i.cpus : ℚ)) else none)
           else none)
         else none)
       else none) := by
  simp [buildConfig, cfgSet, cfg_ite_apply, verGe]

theorem raw_ok (i : TuningInput) (h : validInput i = true) :
    get_pgtune_raw i = .ok (buildConfig i (mcOf i), warningsOf i) := by
  unfold validInput at h
  cases hc : i.connections with
  | none =>
    rw [hc] at h
    simp only [Bool.and_eq_true, decide_eq_true_eq] at h
    simp only [get_pgtune_raw, mcOf, hc]
    rw [if_neg (by omega)]
  | some c =>
    rw [hc] at h
    simp only [Bool.and_eq_true, decide_eq_true_eq] at h
    simp only [get_pgtune_raw, mcOf, hc]
    rw [if_neg (by omega), if_neg (by omega)]

theorem cfgRawOf_eq (i : TuningInput) (h : validInput i = true) :
    cfgRawOf i = buildConfig i (mcOf i) := by
  unfold cfgRawOf
  rw [raw_ok i h]

theorem cfgOf_eq (i : TuningInput) (h : validInput i = true) :
    cfgOf i = formatPass (buildConfig i (mcOf i)) := by
  unfold cfgOf get_pgtune_config
  rw [raw_ok i h]
  rfl

/-- Evaluation helper: `math.ceil(0.5 * c)` for an integer `c`. -/
theorem ceil_half_eval (c : ℤ) : ⌈(0.5 : ℚ) * (c : ℚ)⌉ = -(-c / 2) := by
  have h : (0.5 : ℚ) * (c : ℚ) = -((-c : ℤ) : ℚ) / ((2 : ℕ) : ℚ) := by push_cast; ring
  rw [h, neg_div, Int.ceil_neg, Rat.floor_intCast_div_natCast]
  norm_num

/-- Evaluation helper: the floor of the chained rational division that the
work_mem computation performs. -/
theorem floor_div_div_eval (a : ℤ) (b c : ℕ) :
    ⌊(a : ℚ) / (b : ℚ) / (c : ℚ)⌋ = a / ((b : ℤ) * (c : ℤ)) := by
  rw [div_div]
  have h : ((b : ℚ)) * (c : ℚ) = ((b * c : ℕ) : ℚ) := by push_cast; ring
  rw [h, Rat.floor_intCast_div_natCast]
  push_cast
  ring_nf

theorem formatPass_num (c : Cfg) (k : PKey) (q : ℚ) (h : c k = some (.num q))
    (hn : neverSized k = false) :
    formatPass c k = some (.str (format_size ⌊q⌋.toNat)) := by
  simp [formatPass, h, hn]

theorem formatPass_natnum (c : Cfg) (k : PKey) (n : ℕ) (h : c k = some (.num (n : ℚ)))
    (hn : neverSized k = false) :
    formatPass c k = some (.str (format_size n)) := by
  rw [formatPass_num c k _ h hn, Int.floor_natCast, Int.toNat_natCast]

theorem formatPass_never (c : Cfg) (k : PKey) (hn : neverSized k = true) :
    formatPass c k = c k := by
  simp [formatPass, hn]

theorem formatPass_none (c : Cfg) (k : PKey) (h : c k = none) :
    formatPass c k = none := by
  simp [formatPass, h]

/-- C6: on Windows, `shared_buffers` is capped at 512MB whenever the quarter of
total memory exceeds it (with the version < 8.2 cap at 2GB subsumed), and
`effective_io_concurrency` is never emitted on Windows. -/
theorem c6_windows_caps (i : TuningInput) (h : validInput i = true)
    (hw : i.os_type = .windows) :
    cfgRawOf i .shared_buffers =
      some (.num ((if 512 <<< 10 < sb0Of i then 512 <<< 10 else sb0Of i : ℕ) : ℚ)) ∧
    cfgOf i .shared_buffers =
      some (.str (format_size (if 512 <<< 10 < sb0Of i then 512 <<< 10 else sb0Of i))) ∧
    cfgOf i .effective_io_concurrency = none := by
  have hsb : sbOf i = if 512 <<< 10 < sb0Of i then 512 <<< 10 else sb0Of i := by
    simp [sbOf, hw, gt_iff_lt]
  refine ⟨?_, ?_, ?_⟩
  · rw [cfgRawOf_eq i h, buildConfig_shared_buffers, hsb]
  · rw [cfgOf_eq i h,
      formatPass_natnum _ .shared_buffers _ (by rw [buildConfig_shared_buffers, hsb]) rfl]
  · rw [cfgOf_eq i h, formatPass_none _ .effective_io_concurrency
      (by rw [buildConfig_effective_io_concurrency, hw]; simp)]

theorem c6_witness :
    cfgOf ⟨[9, 6], .windows, .mixed, 65536, none, .hdd, 1⟩ .shared_buffers =
      some (.str "512MB") ∧
    cfgOf ⟨[9, 6], .windows, .mixed, 65536, none, .hdd, 1⟩ .effective_io_concurrency = none := by
  obtain ⟨h1, h2, h3⟩ := c6_windows_caps ⟨[9, 6], .windows, .mixed, 65536, none, .hdd, 1⟩
    (by decide) rfl
  refine ⟨?_, h3⟩
  rw [h2]
  decide

/-- C8: `wal_buffers` is 3% of `shared_buffers` capped at 16MB (16384 kB), is
rounded up to exactly 16MB from anywhere in the (14MB, 16MB) window, and is
present only for versions ≥ 9.1. -/
theorem c8_wal_buffers (i : TuningInput) (h : validInput i = true) (sbn : ℕ)
    (hsb : cfgRawOf i .shared_buffers = some (.num (sbn : ℚ))) :
    cfgRawOf i .wal_buffers =
      some (.num (((if 14 <<< 10 < min (3 * sbn / 100) (16 <<< 10) ∧
                      min (3 * sbn / 100) (16 <<< 10) < 16 <<< 10
                   then 16 <<< 10
                   else min (3 * sbn / 100) (16 <<< 10) : ℕ)) : ℚ)) := by
  rw [cfgRawOf_eq i h] at hsb ⊢
  rw [buildConfig_shared_buffers] at hsb
  have hsb' : sbn = sbOf i := by
    injection hsb with hsb
    injection hsb with hsb
    exact_mod_cast hsb.symm
  subst hsb'
  rw [buildConfig_wal_buffers]
  have hmin : wb1Of i = min (3 * sbOf i / 100) (16 <<< 10) := by
    unfold wb1Of wb0Of
    rcases le_or_lt (3 * sbOf i / 100) (16 <<< 10) with hle | hlt
    · rw [if_neg (by omega), min_eq_left hle]
    · rw [if_pos (by omega), min_eq_right (le_of_lt hlt)]
  unfold wbOf
  rw [hmin]

theorem c8_witness :
    validInput ⟨[9, 2], .linux, .web, 8192, none, .hdd, 1⟩ = true ∧
    cfgRawOf ⟨[9, 2], .linux, .web, 8192, none, .hdd, 1⟩ .wal_buffers = some (.num 16384) := by
  refine ⟨by decide, ?_⟩
  have hsb : cfgRawOf ⟨[9, 2], .linux, .web, 8192, none, .hdd, 1⟩ .shared_buffers =
      some (.num ((2097152 : ℕ) : ℚ)) := by
    rw [cfgRawOf_eq _ (by decide), buildConfig_shared_buffers]
    simp [sbOf, sb0Of, tmkbOf]
  have h := c8_wal_buffers _ (by decide) _ hsb
  rw [h,
    show ((if 14 <<< 10 < min (3 * 2097152 / 100) (16 <<< 10) ∧
              min (3 * 2097152 / 100) (16 <<< 10) < 16 <<< 10
           then 16 <<< 10
           else min (3 * 2097152 / 100) (16 <<< 10) : ℕ)) = 16384 from by decide]
  norm_num


/-- C9: `format_size` always succeeds, picks GB exactly when the size is a
multiple of 2^20, else MB when a multiple of 2^10, else kB, and the numeric
prefix of the returned string, re-expanded by its unit, equals the input
exactly. -/
theorem c9_format_size_roundtrip (n : ℕ) :
    ∃ v : ℕ, ∃ u : String, format_size n = toString v ++ u ∧
      ((u = "GB" ∧ 2 ^ 20 ∣ n ∧ v * 2 ^ 20 = n) ∨
       (u = "MB" ∧ ¬ 2 ^ 20 ∣ n ∧ 2 ^ 10 ∣ n ∧ v * 2 ^ 10 = n) ∨
       (u = "kB" ∧ ¬ 2 ^ 10 ∣ n ∧ v = n)) := by
  unfold format_size
  have e20 : (1 <<< 20 : ℕ) = 2 ^ 20 := by decide
  have e10 : (1 <<< 10 : ℕ) = 2 ^ 10 := by decide
  by_cases h20 : n % (1 <<< 20) = 0
  · have hd : 2 ^ 20 ∣ n := Nat.dvd_of_mod_eq_zero (e20 ▸ h20)
    refine ⟨n >>> 20, "GB", by rw [if_pos h20], Or.inl ⟨rfl, hd, ?_⟩⟩
    rw [Nat.shiftRight_eq_div_pow]
    exact Nat.div_mul_cancel hd
  · have hnd : ¬ 2 ^ 20 ∣ n := fun hd => h20 (e20 ▸ Nat.mod_eq_zero_of_dvd hd)
    by_cases h10 : n % (1 <<< 10) = 0
    · have hd : 2 ^ 10 ∣ n := Nat.dvd_of_mod_eq_zero (e10 ▸ h10)
      refine ⟨n >>> 10, "MB", by rw [if_neg h20, if_pos h10], Or.inr (Or.inl ⟨rfl, hnd, hd, ?_⟩)⟩
      rw [Nat.shiftRight_eq_div_pow]
      exact Nat.div_mul_cancel hd
    · have hnd10 : ¬ 2 ^ 10 ∣ n := fun hd => h10 (e10 ▸ Nat.mod_eq_zero_of_dvd hd)
      exact ⟨n, "kB", by rw [if_neg h20, if_neg h10], Or.inr (Or.inr ⟨rfl, hnd10, rfl⟩)⟩

/-- C3: for every valid input, the stored `work_mem` is
`max 64 ⌊(totalMemoryKB - shared_buffers) / (3 * max_connections) / ceil(0.5 * cpus)⌋`
— the workload-adjusted value (divided by 6 for desktop, by 2 for dw/mixed) is
computed in `buildConfig` and then overwritten by this unadjusted floored base;
the formatted config stores the corresponding size string. -/
theorem c3_work_mem_discards_adjustment (i : TuningInput) (h : validInput i = true)
    (sbv mcv : ℚ)
    (hsb : cfgRawOf i .shared_buffers = some (.num sbv))
    (hmc : cfgRawOf i .max_connections = some (.num mcv)) :
    cfgRawOf i .work_mem =
      some (.num ((max 64 ⌊((tmkbOf i : ℚ) - sbv) / (3 * mcv) /
        ((⌈(0.5 : ℚ) * (i.cpus : ℚ)⌉ : ℤ) : ℚ)⌋ : ℤ) : ℚ)) ∧
    cfgOf i .work_mem =
      some (.str (format_size (max 64 ⌊((tmkbOf i : ℚ) - sbv) / (3 * mcv) /
        ((⌈(0.5 : ℚ) * (i.cpus : ℚ)⌉ : ℤ) : ℚ)⌋).toNat)) := by
  rw [cfgRawOf_eq i h] at hsb hmc
  rw [buildConfig_shared_buffers] at hsb
  rw [buildConfig_max_connections] at hmc
  have hsb' : sbv = (sbOf i : ℚ) := by
    injection hsb with hsb
    injection hsb with hsb
    exact hsb.symm
  have hmc' : mcv = (mcOf i : ℚ) := by
    injection hmc with hmc
    injection hmc with hmc
    exact hmc.symm
  subst hsb' hmc'
  constructor
  · rw [cfgRawOf_eq i h, buildConfig_work_mem]
    rfl
  · rw [cfgOf_eq i h,
      formatPass_num _ _ _ (buildConfig_work_mem i (mcOf i)) rfl, Int.floor_intCast]
    rfl

/-- Witness for C3 at a concrete valid input. -/
theorem c3_witness :
    validInput ⟨[9, 2], .linux, .web, 8192, none, .hdd, 1⟩ = true ∧
    cfgRawOf ⟨[9, 2], .linux, .web, 8192, none, .hdd, 1⟩ .work_mem = some (.num 10485) := by
  refine ⟨by decide, ?_⟩
  have hsb : cfgRawOf ⟨[9, 2], .linux, .web, 8192, none, .hdd, 1⟩ .shared_buffers =
      some (.num 2097152) := by
    rw [cfgRawOf_eq _ (by decide), buildConfig_shared_buffers]
    simp [sbOf, sb0Of, tmkbOf]
  have hmc : cfgRawOf ⟨[9, 2], .linux, .web, 8192, none, .hdd, 1⟩ .max_connections =
      some (.num 200) := by
    rw [cfgRawOf_eq _ (by decide), buildConfig_max_connections]
    simp [mcOf, connTable]
  have h := (c3_work_mem_discards_adjustment _ (by decide) _ _ hsb hmc).1
  rw [h]
  have hce : (⌈(0.5 : ℚ) * ((⟨[9, 2], .linux, .web, 8192, none, .hdd, 1⟩ : TuningInput).cpus : ℚ)⌉ : ℤ) = 1 := by
    rw [ceil_half_eval]
    decide
  rw [hce]
  have hfl : ⌊((tmkbOf ⟨[9, 2], .linux, .web, 8192, none, .hdd, 1⟩ : ℚ) - 2097152) / (3 * 200) /
      ((1 : ℤ) : ℚ)⌋ = (10485 : ℤ) := by
    rw [Int.floor_eq_iff]
    constructor <;> norm_num [tmkbOf, Nat.shiftLeft_eq]
  rw [hfl]
  norm_num

/-- C5: the parallelism keys are version- and CPU-gated in strict accumulated
tiers: `max_worker_processes = cpus` is present iff version ≥ 9.5 and
cpus > 1; `max_parallel_workers_per_gather` additionally requires
version ≥ 9.6; `max_parallel_workers = cpus` additionally requires
version ≥ 10; and the dotted-numeric comparison makes "9.6" less than "10". -/
theorem c5_parallelism (i : TuningInput) (h : validInput i = true) :
    (cfgOf i .max_worker_processes =
      (if verGe i.db_version [9, 5] = true ∧ 1 < i.cpus
       then some (.num (i.cpus : ℚ)) else none)) ∧
    ((cfgOf i .max_parallel_workers_per_gather).isSome = true ↔
      (verGe i.db_version [9, 5] = true ∧ 1 < i.cpus ∧ verGe i.db_version [9, 6] = true)) ∧
    (cfgOf i .max_parallel_workers =
      (if verGe i.db_version [9, 5] = true ∧ 1 < i.cpus ∧ verGe i.db_version [9, 6] = true ∧
          verGe i.db_version [10] = true
       then some (.num (i.cpus : ℚ)) else none)) ∧
    verLt (parseVersion "9.6") (parseVersion "10") = true := by
  rw [cfgOf_eq i h, formatPass_never _ .max_worker_processes rfl,
    formatPass_never _ .max_parallel_workers_per_gather rfl,
    formatPass_never _ .max_parallel_workers rfl,
    buildConfig_max_worker_processes, buildConfig_max_parallel_workers_per_gather,
    buildConfig_max_parallel_workers]
  refine ⟨?_, ?_, ?_, by decide⟩ <;>
    (cases h95 : verGe i.db_version [9, 5] <;>
     cases h96 : verGe i.db_version [9, 6] <;>
     cases h10 : verGe i.db_version [10] <;>
     by_cases hc : 1 < i.cpus <;>
     simp [hc])

/-- Witness for C5 at the two concrete versions of the spec's example. -/
theorem c5_witness :
    cfgOf ⟨[9, 6], .linux, .web, 8192, none, .hdd, 4⟩ .max_worker_processes =
      some (.num 4) ∧
    (cfgOf ⟨[9, 6], .linux, .web, 8192, none, .hdd, 4⟩ .max_parallel_workers_per_gather).isSome
      = true ∧
    cfgOf ⟨[9, 6], .linux, .web, 8192, none, .hdd, 4⟩ .max_parallel_workers = none ∧
    cfgOf ⟨[10], .linux, .web, 8192, none, .hdd, 4⟩ .max_parallel_workers =
      some (.num 4) := by
  obtain ⟨h1, h2, h3, -⟩ := c5_parallelism ⟨[9, 6], .linux, .web, 8192, none, .hdd, 4⟩
    (by decide)
  obtain ⟨-, -, h6, -⟩ := c5_parallelism ⟨[10], .linux, .web, 8192, none, .hdd, 4⟩
    (by decide)
  refine ⟨?_, ?_, ?_, ?_⟩
  · rw [h1, if_pos ⟨by decide, by decide⟩]
    norm_num
  · exact h2.mpr ⟨by decide, by decide, by decide⟩
  · rw [h3, if_neg]
    rintro ⟨-, -, -, h10⟩
    exact absurd h10 (by decide)
  · rw [h6, if_pos ⟨by decide, by decide, by decide, by decide⟩]
    norm_num

/-- C10: for every valid input, the nine unconditional keys are always present
in the result, and exactly one of `checkpoint_segments` (version < 9.5) or the
`min_wal_size`/`max_wal_size` pair (version ≥ 9.5) is present. -/
theorem c10_keys_always_present (i : TuningInput) (h : validInput i = true) :
    (cfgOf i .max_connections).isSome = true ∧
    (cfgOf i .shared_buffers).isSome = true ∧
    (cfgOf i .effective_cache_size).isSome = true ∧
    (cfgOf i .work_mem).isSome = true ∧
    (cfgOf i .maintenance_work_mem).isSome = true ∧
    (cfgOf i .checkpoint_completion_target).isSome = true ∧
    (cfgOf i .wal_buffers).isSome = true ∧
    (cfgOf i .default_statistics_target).isSome = true ∧
    (cfgOf i .random_page_cost).isSome = true ∧
    (if verLt i.db_version [9, 5] = true then
      (cfgOf i .checkpoint_segments).isSome = true ∧
      cfgOf i .min_wal_size = none ∧ cfgOf i .max_wal_size = none
     else
      cfgOf i .checkpoint_segments = none ∧
      (cfgOf i .min_wal_size).isSome = true ∧ (cfgOf i .max_wal_size).isSome = true) := by
  rw [cfgOf_eq i h]
  cases hv : verLt i.db_version [9, 5] <;>
    simp [formatPass, buildConfig_max_connections, buildConfig_shared_buffers,
      buildConfig_effective_cache_size, buildConfig_work_mem,
      buildConfig_maintenance_work_mem, buildConfig_checkpoint_completion_target,
      buildConfig_wal_buffers, buildConfig_default_statistics_target,
      buildConfig_random_page_cost, buildConfig_checkpoint_segments,
      buildConfig_min_wal_size, buildConfig_max_wal_size, hv]

/-- C4 counterexample: at the claimed boundary input (8 GB web/linux/hdd,
1 CPU, version 9.2), `shared_buffers` is formatted as `"2GB"`, not
`"2048MB"`: `format_size` prefers GB whenever the kB value is an exact
multiple of 2^20. -/
theorem c4_counterexample :
    cfgOf ⟨[9, 2], .linux, .web, 8192, none, .hdd, 1⟩ .shared_buffers ≠
      some (.str "2048MB") := by
  rw [cfgOf_eq _ (by decide),
    formatPass_natnum _ .shared_buffers (sbOf ⟨[9, 2], .linux, .web, 8192, none, .hdd, 1⟩)
      (by rw [buildConfig_shared_buffers]) rfl]
  decide

/-- C4 (amended): the boundary values actually produced for
(8192 MB, web, linux, hdd, 1 CPU, "9.2"): `max_connections = 200`,
`shared_buffers = "2GB"`, `effective_cache_size = "6GB"`,
`checkpoint_segments` present with no `min_wal_size`/`max_wal_size`,
`random_page_cost = 4`, `effective_io_concurrency = 2`. -/
theorem c4_boundary_values :
    cfgOf ⟨[9, 2], .linux, .web, 8192, none, .hdd, 1⟩ .max_connections = some (.num 200) ∧
    cfgOf ⟨[9, 2], .linux, .web, 8192, none, .hdd, 1⟩ .shared_buffers = some (.str "2GB") ∧
    cfgOf ⟨[9, 2], .linux, .web, 8192, none, .hdd, 1⟩ .effective_cache_size =
      some (.str "6GB") ∧
    (cfgOf ⟨[9, 2], .linux, .web, 8192, none, .hdd, 1⟩ .checkpoint_segments).isSome = true ∧
    cfgOf ⟨[9, 2], .linux, .web, 8192, none, .hdd, 1⟩ .min_wal_size = none ∧
    cfgOf ⟨[9, 2], .linux, .web, 8192, none, .hdd, 1⟩ .max_wal_size = none ∧
    cfgOf ⟨[9, 2], .linux, .web, 8192, none, .hdd, 1⟩ .random_page_cost = some (.num 4) ∧
    cfgOf ⟨[9, 2], .linux, .web, 8192, none, .hdd, 1⟩ .effective_io_concurrency =
      some (.num 2) := by
  rw [cfgOf_eq _ (by decide)]
  refine ⟨?_, ?_, ?_, ?_, ?_, ?_, ?_, ?_⟩
  · rw [formatPass_never _ .max_connections rfl, buildConfig_max_connections]
    simp [mcOf, connTable]
  · rw [formatPass_natnum _ .shared_buffers (sbOf ⟨[9, 2], .linux, .web, 8192, none, .hdd, 1⟩)
      (by rw [buildConfig_shared_buffers]) rfl]
    decide
  · rw [formatPass_natnum _ .effective_cache_size
      (ecsOf ⟨[9, 2], .linux, .web, 8192, none, .hdd, 1⟩)
      (by rw [buildConfig_effective_cache_size]) rfl]
    decide
  · rw [formatPass_never _ .checkpoint_segments rfl, buildConfig_checkpoint_segments]
    decide
  · rw [formatPass_none _ .min_wal_size (by rw [buildConfig_min_wal_size]; decide)]
  · rw [formatPass_none _ .max_wal_size (by rw [buildConfig_max_wal_size]; decide)]
  · rw [formatPass_never _ .random_page_cost rfl, buildConfig_random_page_cost]
    simp
  · rw [formatPass_never _ .effective_io_concurrency rfl,
      buildConfig_effective_io_concurrency]
    simp

/-- Witness for C10 at a concrete valid input (version 9.6: the wal-size pair
is present and checkpoint_segments is absent). -/
theorem c10_witness :
    validInput ⟨[9, 6], .linux, .mixed, 4096, none, .ssd, 2⟩ = true ∧
    (cfgOf ⟨[9, 6], .linux, .mixed, 4096, none, .ssd, 2⟩ .wal_buffers).isSome = true ∧
    cfgOf ⟨[9, 6], .linux, .mixed, 4096, none, .ssd, 2⟩ .checkpoint_segments = none ∧
    (cfgOf ⟨[9, 6], .linux, .mixed, 4096, none, .ssd, 2⟩ .min_wal_size).isSome = true := by
  obtain ⟨-, -, -, -, -, -, h7, -, -, h10⟩ :=
    c10_keys_always_present ⟨[9, 6], .linux, .mixed, 4096, none, .ssd, 2⟩ (by decide)
  rw [if_neg (by decide)] at h10
  exact ⟨by decide, h7, h10.1, h10.2.1⟩

/-- The state of the target path as seen by `write_optimizations`. -/
structure FileState where
  isDir : Bool
  pathExists : Bool
  content : List Char
deriving DecidableEq, Inhabited

/-- The head of `write_optimizations`, up to and including the
`get_pgtune_config` call: the directory check (`os.path.isdir`), the existence
check (`os.path.exists`), the file read (`readlines`), then the calculator.
The second component records whether the file had been read by the time the
outcome was produced. -/
def writeOptPrefix (fs : FileState) (i : TuningInput) :
    Except String (Cfg × List String) × Bool :=
  if fs.isDir then (.error "Path is a directory!", false)
  else if !fs.pathExists then (.error "Path does not exist!", false)
  else
    -- pg_conf_lines = open(path).readlines() happens here, before the calculator
    (get_pgtune_config i, true)

/-- C7 counterexample: with an existing regular file and `cpus = 0`, the
invalid-input failure is produced only after the file has been read
(flag `true`); with a missing path and the same invalid input, the path error
preempts the invalid-input error entirely — so validation is not "before any
file access". -/
theorem c7_counterexample :
    writeOptPrefix ⟨false, true, []⟩ ⟨[9, 6], .linux, .mixed, 4096, none, .ssd, 0⟩ =
      (.error "cpus must be a strictly positive integer", true) ∧
    writeOptPrefix ⟨false, false, []⟩ ⟨[9, 6], .linux, .mixed, 4096, none, .ssd, 0⟩ =
      (.error "Path does not exist!", false) := by
  constructor <;> rfl

/-- C7 (amended): the calculator fails exactly when `cpus < 1`, `cpus > 9999`,
or `connections` is given and `< 10`, and `write_optimizations` surfaces that
failure unchanged — but only after the path checks and the file read: the
file-read flag is already `true` when the invalid-input error is returned. -/
theorem c7_validation (i : TuningInput) (fs : FileState)
    (hd : fs.isDir = false) (he : fs.pathExists = true) :
    ((∃ e, get_pgtune_config i = .error e) ↔
      (i.cpus < 1 ∨ 9999 < i.cpus ∨ ∃ c, i.connections = some c ∧ c < 10)) ∧
    (writeOptPrefix fs i).1 = get_pgtune_config i ∧
    (writeOptPrefix fs i).2 = true := by
  refine ⟨?_, ?_, ?_⟩
  · cases hc : i.connections with
    | none =>
      simp only [get_pgtune_config, get_pgtune_raw, hc]
      by_cases hcp : i.cpus ≤ 0 ∨ i.cpus > 9999
      · rw [if_pos hcp]
        simp only [Except.map]
        constructor
        · intro
          omega
        · intro
          exact ⟨_, rfl⟩
      · rw [if_neg hcp]
        simp only [Except.map]
        constructor
        · rintro ⟨e, he'⟩
          exact absurd he' (by simp)
        · rintro (h1 | h2 | ⟨c, hc', -⟩)
          · omega
          · omega
          · simp [hc] at hc'
    | some c =>
      simp only [get_pgtune_config, get_pgtune_raw, hc]
      by_cases h10 : c < 10
      · rw [if_pos h10]
        simp only [Except.map]
        exact ⟨fun _ => Or.inr (Or.inr ⟨c, rfl, h10⟩), fun _ => ⟨_, rfl⟩⟩
      · by_cases hcp : i.cpus ≤ 0 ∨ i.cpus > 9999
        · rw [if_neg h10, if_pos hcp]
          simp only [Except.map]
          exact ⟨fun _ => by omega, fun _ => ⟨_, rfl⟩⟩
        · rw [if_neg h10, if_neg hcp]
          simp only [Except.map]
          constructor
          · rintro ⟨e, he'⟩
            exact absurd he' (by simp)
          · rintro (h1 | h2 | ⟨c', hc', hlt⟩)
            · omega
            · omega
            · injection hc' with hc'
              omega
  · unfold writeOptPrefix
    rw [hd, he]
    rfl
  · unfold writeOptPrefix
    rw [hd, he]
    rfl

/-- C7 witness: concrete valid and invalid inputs exercising the validation
theorem. -/
theorem c7_witness :
    (∃ e, get_pgtune_config ⟨[9, 6], .linux, .mixed, 4096, none, .ssd, 0⟩ = .error e) ∧
    (writeOptPrefix ⟨false, true, []⟩ ⟨[9, 6], .linux, .mixed, 4096, none, .ssd, 0⟩).2
      = true := by
  obtain ⟨h1, -, h3⟩ := c7_validation ⟨[9, 6], .linux, .mixed, 4096, none, .ssd, 0⟩
    ⟨false, true, []⟩ rfl rfl
  exact ⟨h1.mpr (Or.inl (by norm_num)), h3⟩


/-! ## The merge step of `write_optimizations` -/

/-- Python's `\s` character class (on byte strings). -/
def isPySpace (c : Char) : Bool :=
  c = ' ' || c = '\t' || c = '\n' || c = '\r' || c = '\x0b' || c = '\x0c'

/-- The `[\s#]*` class of the merge regex prefix. -/
def isSpaceHash (c : Char) : Bool := isPySpace c || c = '#'

/-- `\S`. -/
def notSpace (c : Char) : Bool := !isPySpace c

/-- Does `.*$` accept this remainder (no newline other than a final one)? -/
def dotStarOk (l : List Char) : Bool := l.dropLast.all (fun c => c != '\n')

/-- Match `\s*=\s*(?P<value>\S+).*$` at the position right after a candidate
key.  Returns `(mid, value, rest)` with the input equal to
`mid ++ value ++ rest`; `mid` is the matched `\s*=\s*` text. -/
def matchAfterKey (t : List Char) : Option (List Char × List Char × List Char) :=
  let w1 := t.takeWhile isPySpace
  match t.dropWhile isPySpace with
  | [] => none
  | c :: t2 =>
    if c = '=' then
      let w2 := t2.takeWhile isPySpace
      let v := (t2.dropWhile isPySpace).takeWhile notSpace
      let r := (t2.dropWhile isPySpace).dropWhile notSpace
      if v = [] then none
      else if dotStarOk r then some (w1 ++ '=' :: w2, v, r) else none
    else none

/-- Greedy backtracking over the end position of the `(?P<key>[\S^#]+)` group
(`[\S^#]` is just `\S`): `revKey` holds the as-yet-unreleased key characters in
reverse; longer keys are tried first, releasing one trailing character to the
remainder after each failure.  Returns `(key, mid, value, rest)`. -/
def tryKeySplits : List Char → List Char →
    Option (List Char × List Char × List Char × List Char)
  | [], _ => none
  | c :: revK, after =>
    match matchAfterKey after with
    | some (m, v, r) => some ((c :: revK).reverse, m, v, r)
    | none => tryKeySplits revK (c :: after)

/-- One attempt at a fixed `[\s#]*` prefix: the key group is the maximal `\S`
run at the current position, shortened by backtracking. -/
def preAttempt (pre text : List Char) :
    Option (List Char × List Char × List Char × List Char × List Char) :=
  match tryKeySplits (text.takeWhile notSpace).reverse (text.dropWhile notSpace) with
  | some (k, m, v, rst) => some (pre, k, m, v, rst)
  | none => none

/-- Greedy backtracking over the length of the `[\s#]*` prefix (longest
first). -/
def tryPreSplits : List Char → List Char →
    Option (List Char × List Char × List Char × List Char × List Char)
  | [], text => preAttempt [] text
  | c :: revP, text =>
    match preAttempt ((c :: revP).reverse) text with
    | some res => some res
    | none => tryPreSplits revP (c :: text)

/-- `re.match(r'(?P<setup>[\s#]*(?P<key>[\S^#]+)\s*=\s*(?P<value>[\S^#]+)).*$', line)`:
returns `(pre, key, mid, value, rest)` on success, where the `setup` group is
`pre ++ key ++ mid ++ value` and `line = pre ++ key ++ mid ++ value ++ rest`. -/
def matchAssign (line : List Char) : Option (List Char × List Char × List Char × List Char × List Char) :=
  tryPreSplits (line.takeWhile isSpaceHash).reverse (line.dropWhile isSpaceHash)

/-- `pgtune_config[key]` lookup (values already stringified). -/
def lookupP (k : List Char) : List (List Char × List Char) → Option (List Char)
  | [] => none
  | (k', v) :: rest => if k' = k then some v else lookupP k rest

/-- `pgtune_config_to_append.pop(key)`: removes the entry, `none` models the
`KeyError` raised when the key is absent. -/
def popKey (k : List Char) : List (List Char × List Char) →
    Option (List (List Char × List Char))
  | [] => none
  | (k', v) :: rest =>
    if k' = k then some rest
    else (popKey k rest).map (fun t => (k', v) :: t)

/-- `'#Ansible: updated by postgresql_tune on {:%Y-%m-%d} (previous value: {})'`. -/
def annotUpd (today oldv : List Char) : List Char :=
  ("#Ansible: updated by postgresql_tune on ").data ++ today ++
    (" (previous value: ").data ++ oldv ++ [')']

/-- `'#Ansible: added by postgresql_tune on {:%Y-%m-%d}'`. -/
def annotAdd (today : List Char) : List Char :=
  ("#Ansible: added by postgresql_tune on ").data ++ today

/-- `'{} = {}'.format(key, pgtune_config[key])`. -/
def newAssign (k v : List Char) : List Char := k ++ (" = ").data ++ v

/-- Fuel-indexed body of Python's `str.replace` (replace all non-overlapping
occurrences, scanning left to right).  The fuel only makes the recursion
structural; `pyReplace` supplies enough fuel for it never to run out. -/
def pyReplaceAux (old new : List Char) : ℕ → List Char → List Char
  | 0, s => s
  | _ + 1, [] => []
  | fuel + 1, c :: cs =>
    if old ≠ [] ∧ old.isPrefixOf (c :: cs) then
      new ++ pyReplaceAux old new fuel ((c :: cs).drop old.length)
    else c :: pyReplaceAux old new fuel cs

/-- `s.replace(old, new)` for a nonempty `old`. -/
def pyReplace (s old new : List Char) : List Char := pyReplaceAux old new s.length s

/-- The result of the merge step: the output line sequence, the keys updated in
place, the keys appended at the end, and the overall changed flag. -/
structure MergeResult where
  newLines : List (List Char)
  updatedKeys : List (List Char)
  addedKeys : List (List Char)
  changed : Bool
deriving DecidableEq, Inhabited

/-- One iteration of the per-line loop of `write_optimizations`: given the
current `pgtune_config_to_append` dict, process one line.  Returns the
(possibly rewritten) stored line, the new to-append dict, the keys this line
contributed to `updated_parameters`, and whether it set `changed`; `none`
models the `KeyError` of `pop(key)`. -/
def stepMatched (params : List (List Char × List Char)) (today : List Char)
    (toApp : List (List Char × List Char)) (line : List Char)
    (pre k m v : List Char) :
    Option (List Char × List (List Char × List Char) × List (List Char) × Bool) :=
  match lookupP k params with
  | none => some (line, toApp, [], false)
  | some pv =>
    if pv = v then
      (popKey k toApp).map (fun t => (line, t, [], false))
    else
      (popKey k toApp).map (fun t =>
        (annotUpd today v ++ '\n' :: pyReplace line (pre ++ k ++ m ++ v) (newAssign k pv),
         t, [k], true))

def step (params : List (List Char × List Char)) (today : List Char)
    (toApp : List (List Char × List Char)) (line : List Char) :
    Option (List Char × List (List Char × List Char) × List (List Char) × Bool) :=
  match matchAssign line with
  | none => some (line, toApp, [], false)
  | some (pre, k, m, v, _rest) => stepMatched params today toApp line pre k m v

/-- The per-line loop over all lines. -/
def mergeLoop (params : List (List Char × List Char)) (today : List Char) :
    List (List Char) → List (List Char × List Char) →
    Option (List (List Char) × List (List Char × List Char) × List (List Char) × Bool)
  | [], toApp => some ([], toApp, [], false)
  | l :: ls, toApp =>
    match step params today toApp l with
    | none => none
    | some (out, toApp2, upd, ch) =>
      match mergeLoop params today ls toApp2 with
      | none => none
      | some (outs, toApp3, upds, ch2) => some (out :: outs, toApp3, upd ++ upds, ch || ch2)

/-- The merge step of `write_optimizations`: the per-line loop followed by the
append phase for the keys still pending. -/
def merge (lines : List (List Char)) (params : List (List Char × List Char))
    (today : List Char) : Option MergeResult :=
  match mergeLoop params today lines params with
  | none => none
  | some (outs, toApp, upds, ch) =>
    some { newLines := outs ++ toApp.map (fun kv =>
             annotAdd today ++ '\n' :: (kv.1 ++ (" = ").data ++ kv.2 ++ ['\n']))
           updatedKeys := upds
           addedKeys := toApp.map (fun kv => kv.1)
           changed := ch || !toApp.isEmpty }

/-- `readlines`: split a byte string into lines, each keeping its trailing
newline; a last line without a newline is kept as-is. -/
def splitLines : List Char → List (List Char)
  | [] => []
  | c :: cs =>
    if c = '\n' then ['\n'] :: splitLines cs
    else match splitLines cs with
      | [] => [[c]]
      | l :: ls => (c :: l) :: ls


/-- C2: the merge step raises `KeyError` (models as `none`) when the same
parameter key matches on two lines: the second `pop(key)` on the already-popped
to-append dict fails.  Concrete failing input: a two-line file both lines
`work_mem = 64`, with `work_mem = 64` in the parameter set. -/
theorem c2_duplicate_key_fails :
    merge (splitLines ("work_mem = 64\nwork_mem = 64\n").data)
      [(("work_mem").data, ("64").data)] ("2018-01-01").data = none := by
  rfl

/-- C1 counterexample: a single well-formed assignment line whose matched
`setup` text occurs twice in the line.  The in-place rewrite uses Python
`str.replace`, which replaces *all* occurrences and drops the `[\s#]*` prefix
only from the rewritten copy, so the first merge garbles the line and the
second merge run still reports `changed = true` with `work_mem` updated again
— refuting idempotence as claimed. -/
theorem c1_counterexample :
    ((merge (splitLines (" work_mem = 64 work_mem = 64\n").data)
        [(("work_mem").data, ("128").data)] ("2018-01-01").data).bind (fun r1 =>
      merge (splitLines r1.newLines.flatten)
        [(("work_mem").data, ("128").data)] ("2018-01-01").data)).map
      (fun r2 => (r2.changed, r2.updatedKeys, r2.addedKeys)) =
    some (true, [("work_mem").data], []) := by
  rfl

end PgTune

namespace PgTune

theorem notSpace_eq_false {c : Char} (h : isPySpace c = true) : notSpace c = false := by
  simp [notSpace, h]

theorem isPySpace_of_not_notSpace {c : Char} (h : notSpace c = false) : isPySpace c = true := by
  simpa [notSpace] using h

theorem dropWhile_head_false {α : Type} {p : α → Bool} {l : List α} {d : α} {r2 : List α}
    (h : l.dropWhile p = d :: r2) : p d = false := by
  induction l with
  | nil => simp at h
  | cons c cs ih =>
    by_cases hp : p c = true
    · rw [List.dropWhile_cons_of_pos hp] at h
      exact ih h
    · rw [List.dropWhile_cons_of_neg hp] at h
      injection h with h1 _
      subst h1
      simpa using hp

theorem matchAfterKey_eq {t m v r : List Char} (h : matchAfterKey t = some (m, v, r)) :
    t = m ++ v ++ r ∧ v ≠ [] ∧ (∀ c ∈ v, notSpace c = true) ∧
    (r = [] ∨ ∃ c r2, r = c :: r2 ∧ isPySpace c = true) ∧ dotStarOk r = true := by
  cases hd : t.dropWhile isPySpace with
  | nil =>
    simp only [matchAfterKey, hd] at h
    exact Option.noConfusion h
  | cons c t2 =>
    simp only [matchAfterKey, hd] at h
    by_cases hc : c = '='
    · rw [if_pos hc] at h
      by_cases hv : (t2.dropWhile isPySpace).takeWhile notSpace = []
      · rw [if_pos hv] at h
        exact absurd h (by simp)
      · rw [if_neg hv] at h
        by_cases hok : dotStarOk ((t2.dropWhile isPySpace).dropWhile notSpace) = true
        · rw [if_pos hok] at h
          injection h with h
          injection h with h1 h
          injection h with h2 h3
          subst h1 h2 h3 hc
          refine ⟨?_, hv, fun c hc => List.mem_takeWhile_imp hc, ?_, hok⟩
          · have e1 : t.takeWhile isPySpace ++ t.dropWhile isPySpace = t :=
              List.takeWhile_append_dropWhile ..
            have e2 : t2.takeWhile isPySpace ++ t2.dropWhile isPySpace = t2 :=
              List.takeWhile_append_dropWhile ..
            have e3 : (t2.dropWhile isPySpace).takeWhile notSpace ++
                (t2.dropWhile isPySpace).dropWhile notSpace = t2.dropWhile isPySpace :=
              List.takeWhile_append_dropWhile ..
            have h5 : t2 = t2.takeWhile isPySpace ++
                ((t2.dropWhile isPySpace).takeWhile notSpace ++
                 (t2.dropWhile isPySpace).dropWhile notSpace) := by
              rw [e3]
              exact e2.symm
            have h6 : t = t.takeWhile isPySpace ++ ('=' :: t2) := by
              rw [← hd]
              exact e1.symm
            conv_lhs => rw [h6, h5]
            simp [List.append_assoc]
          · cases hr : (t2.dropWhile isPySpace).dropWhile notSpace with
            | nil => exact Or.inl rfl
            | cons d r2 => exact Or.inr ⟨d, r2, rfl,
                isPySpace_of_not_notSpace (dropWhile_head_false hr)⟩
        · rw [if_neg hok] at h
          exact absurd h (by simp)
    · rw [if_neg hc] at h
      exact absurd h (by simp)

end PgTune

namespace PgTune

theorem tryKeySplits_eq {revK after k m v r : List Char}
    (hks : ∀ c ∈ revK, notSpace c = true)
    (h : tryKeySplits revK after = some (k, m, v, r)) :
    revK.reverse ++ after = k ++ m ++ v ++ r ∧ k ≠ [] ∧ (∀ c ∈ k, notSpace c = true) ∧
    v ≠ [] ∧ (∀ c ∈ v, notSpace c = true) ∧
    (r = [] ∨ ∃ c r2, r = c :: r2 ∧ isPySpace c = true) ∧ dotStarOk r = true := by
  induction revK generalizing after with
  | nil => exact Option.noConfusion h
  | cons c revK2 ih =>
    rw [tryKeySplits] at h
    cases hm : matchAfterKey after with
    | some mvr =>
      obtain ⟨m1, v1, r1⟩ := mvr
      rw [hm] at h
      injection h with h
      injection h with h1 h
      injection h with h2 h
      injection h with h3 h4
      subst h1 h2 h3 h4
      obtain ⟨he, hv, hvs, hr, hok⟩ := matchAfterKey_eq hm
      refine ⟨by rw [he]; simp [List.append_assoc], by simp, ?_, hv, hvs, hr, hok⟩
      intro d hd
      exact hks d (by simpa using (List.mem_reverse).mp hd)
    | none =>
      rw [hm] at h
      have := ih (fun d hd => hks d (List.mem_cons_of_mem _ hd)) h
      refine ⟨?_, this.2⟩
      rw [← this.1]
      simp
end PgTune

namespace PgTune

theorem preAttempt_eq {pre text p k m v r : List Char}
    (h : preAttempt pre text = some (p, k, m, v, r)) :
    p = pre ∧ text = k ++ m ++ v ++ r ∧ k ≠ [] ∧ (∀ c ∈ k, notSpace c = true) ∧
    v ≠ [] ∧ (∀ c ∈ v, notSpace c = true) ∧
    (r = [] ∨ ∃ c r2, r = c :: r2 ∧ isPySpace c = true) ∧ dotStarOk r = true := by
  unfold preAttempt at h
  cases hk : tryKeySplits (text.takeWhile notSpace).reverse (text.dropWhile notSpace) with
  | none =>
    rw [hk] at h
    exact Option.noConfusion h
  | some kmvr =>
    obtain ⟨k1, m1, v1, r1⟩ := kmvr
    rw [hk] at h
    injection h with h
    injection h with h1 h
    injection h with h2 h
    injection h with h3 h
    injection h with h4 h5
    subst h1 h2 h3 h4 h5
    have hks : ∀ c ∈ (text.takeWhile notSpace).reverse, notSpace c = true := by
      intro d hd
      exact List.mem_takeWhile_imp ((List.mem_reverse).mp hd)
    obtain ⟨he, hk1, hkall, hv, hvs, hr, hok⟩ := tryKeySplits_eq hks hk
    rw [List.reverse_reverse, List.takeWhile_append_dropWhile] at he
    exact ⟨rfl, he, hk1, hkall, hv, hvs, hr, hok⟩

theorem tryPreSplits_eq {revP text p k m v r : List Char}
    (h : tryPreSplits revP text = some (p, k, m, v, r)) :
    revP.reverse ++ text = p ++ k ++ m ++ v ++ r ∧ k ≠ [] ∧
    (∀ c ∈ k, notSpace c = true) ∧
    v ≠ [] ∧ (∀ c ∈ v, notSpace c = true) ∧
    (r = [] ∨ ∃ c r2, r = c :: r2 ∧ isPySpace c = true) ∧ dotStarOk r = true := by
  induction revP generalizing text with
  | nil =>
    rw [tryPreSplits] at h
    obtain ⟨hp, he, rest⟩ := preAttempt_eq h
    subst hp
    simpa [he] using rest
  | cons c revP2 ih =>
    rw [tryPreSplits] at h
    cases ha : preAttempt ((c :: revP2).reverse) text with
    | some res =>
      rw [ha] at h
      injection h with h
      subst h
      obtain ⟨hp, he, rest⟩ := preAttempt_eq ha
      refine ⟨?_, rest⟩
      rw [hp, he]
      simp [List.append_assoc]
    | none =>
      rw [ha] at h
      have := ih h
      refine ⟨?_, this.2⟩
      rw [← this.1]
      simp

theorem matchAssign_eq {line p k m v r : List Char}
    (h : matchAssign line = some (p, k, m, v, r)) :
    line = p ++ k ++ m ++ v ++ r ∧ k ≠ [] ∧ (∀ c ∈ k, notSpace c = true) ∧
    v ≠ [] ∧ (∀ c ∈ v, notSpace c = true) ∧
    (r = [] ∨ ∃ c r2, r = c :: r2 ∧ isPySpace c = true) ∧ dotStarOk r = true := by
  unfold matchAssign at h
  have := tryPreSplits_eq h
  rwa [List.reverse_reverse, List.takeWhile_append_dropWhile] at this

end PgTune

namespace PgTune

theorem matchAssign_clean (c0 : Char) (k2 v r : List Char)
    (h0 : isSpaceHash c0 = false)
    (hks : ∀ c ∈ k2, notSpace c = true)
    (hv : v ≠ []) (hvs : ∀ c ∈ v, notSpace c = true)
    (hr : r = [] ∨ ∃ c r2, r = c :: r2 ∧ isPySpace c = true)
    (hok : dotStarOk r = true) :
    matchAssign ((c0 :: k2) ++ (" = ").data ++ v ++ r) =
      some ([], c0 :: k2, (" = ").data, v, r) := by
  have hps0 : isPySpace c0 = false := by
    unfold isSpaceHash at h0
    rcases Bool.or_eq_false_iff.mp h0 with ⟨h1, -⟩
    exact h1
  have hn0 : notSpace c0 = true := by simp [notSpace, hps0]
  have hksAll : ∀ c ∈ c0 :: k2, notSpace c = true := by
    intro c hc
    rcases List.mem_cons.mp hc with h | h
    · subst h; exact hn0
    · exact hks c h
  obtain ⟨v0, v2, rfl⟩ : ∃ v0 v2, v = v0 :: v2 := by
    cases v with
    | nil => exact absurd rfl hv
    | cons v0 v2 => exact ⟨v0, v2, rfl⟩
  have hv0 : isPySpace v0 = false := by
    have := hvs v0 (List.mem_cons_self ..)
    simpa [notSpace] using this
  have t5 : List.takeWhile notSpace ((v0 :: v2) ++ r) = v0 :: v2 := by
    rw [List.takeWhile_append_of_pos hvs]
    rcases hr with rfl | ⟨c, r2, rfl, hc⟩
    · simp
    · rw [List.takeWhile_cons_of_neg (by simp [notSpace, hc])]
      simp
  have t6 : List.dropWhile notSpace ((v0 :: v2) ++ r) = r := by
    rw [List.dropWhile_append_of_pos hvs]
    rcases hr with rfl | ⟨c, r2, rfl, hc⟩
    · simp
    · rw [List.dropWhile_cons_of_neg (by simp [notSpace, hc])]
  have hmak : matchAfterKey (' ' :: '=' :: ' ' :: ((v0 :: v2) ++ r)) =
      some ((" = ").data, v0 :: v2, r) := by
    have t1 : List.takeWhile isPySpace (' ' :: '=' :: ' ' :: ((v0 :: v2) ++ r)) = [' '] := by
      rw [List.takeWhile_cons_of_pos (by decide), List.takeWhile_cons_of_neg (by decide)]
    have t2 : List.dropWhile isPySpace (' ' :: '=' :: ' ' :: ((v0 :: v2) ++ r)) =
        '=' :: ' ' :: ((v0 :: v2) ++ r) := by
      rw [List.dropWhile_cons_of_pos (by decide), List.dropWhile_cons_of_neg (by decide)]
    have t3 : List.takeWhile isPySpace (' ' :: ((v0 :: v2) ++ r)) = [' '] := by
      rw [List.takeWhile_cons_of_pos (by decide)]
      simp [List.takeWhile_cons_of_neg, hv0]
    have t4 : List.dropWhile isPySpace (' ' :: ((v0 :: v2) ++ r)) = (v0 :: v2) ++ r := by
      rw [List.dropWhile_cons_of_pos (by decide)]
      simp [List.dropWhile_cons_of_neg, hv0]
    simp only [matchAfterKey, t1, t2, if_true]
    simp only [t3, t4, t5, t6]
    rw [if_neg (by simp), if_pos hok]
    rfl
  -- the whole line
  have hline : (c0 :: k2) ++ (" = ").data ++ (v0 :: v2) ++ r =
      c0 :: (k2 ++ (' ' :: '=' :: ' ' :: ((v0 :: v2) ++ r))) := by
    simp [List.append_assoc]
  rw [hline]
  unfold matchAssign
  rw [List.takeWhile_cons_of_neg (by simp [h0]), List.dropWhile_cons_of_neg (by simp [h0])]
  show preAttempt [] _ = _
  unfold preAttempt
  have tw1 : List.takeWhile notSpace (c0 :: (k2 ++ (' ' :: '=' :: ' ' :: ((v0 :: v2) ++ r)))) =
      c0 :: k2 := by
    rw [List.takeWhile_cons_of_pos hn0, List.takeWhile_append_of_pos hks,
      List.takeWhile_cons_of_neg (by decide)]
    simp
  have dw1 : List.dropWhile notSpace (c0 :: (k2 ++ (' ' :: '=' :: ' ' :: ((v0 :: v2) ++ r)))) =
      ' ' :: '=' :: ' ' :: ((v0 :: v2) ++ r) := by
    rw [List.dropWhile_cons_of_pos hn0, List.dropWhile_append_of_pos hks,
      List.dropWhile_cons_of_neg (by decide)]
  rw [tw1, dw1]
  obtain ⟨d, rk, hrk⟩ : ∃ d rk, (c0 :: k2).reverse = d :: rk := by
    cases hrev : (c0 :: k2).reverse with
    | nil => exact absurd hrev (by simp)
    | cons d rk => exact ⟨d, rk, rfl⟩
  rw [hrk, tryKeySplits, hmak]
  rw [← hrk, List.reverse_reverse]

end PgTune

namespace PgTune

theorem pyReplaceAux_not_infix {old new : List Char} :
    ∀ (fuel : ℕ) (s : List Char), ¬ old <:+: s → pyReplaceAux old new fuel s = s := by
  intro fuel
  induction fuel with
  | zero => intro s _; rfl
  | succ f ih =>
    intro s hs
    cases s with
    | nil => rfl
    | cons c cs =>
      rw [pyReplaceAux]
      rw [if_neg]
      · rw [ih cs (fun hi => hs (List.infix_cons hi))]
      · rintro ⟨-, hp⟩
        exact hs ((List.isPrefixOf_iff_prefix.mp hp).isInfix)

theorem pyReplace_seed {old rest : List Char} (new : List Char) (hne : old ≠ [])
    (h : ¬ old <:+: rest) : pyReplace (old ++ rest) old new = new ++ rest := by
  unfold pyReplace
  obtain ⟨o, os, rfl⟩ : ∃ o os, old = o :: os := by
    cases old with
    | nil => exact absurd rfl hne
    | cons o os => exact ⟨o, os, rfl⟩
  rw [show (o :: os) ++ rest = o :: (os ++ rest) from rfl]
  rw [show (o :: (os ++ rest)).length = (o :: (os ++ rest)).length.pred + 1 from rfl]
  rw [pyReplaceAux]
  rw [if_pos ⟨by simp, by simp [List.isPrefixOf_iff_prefix]⟩]
  have hd : (o :: (os ++ rest)).drop (o :: os).length = rest := by
    have : o :: (os ++ rest) = (o :: os) ++ rest := rfl
    rw [this, List.drop_left]
  rw [hd, pyReplaceAux_not_infix _ rest h]

end PgTune

namespace PgTune

theorem splitLines_ne_nil : ∀ {s : List Char}, s ≠ [] → splitLines s ≠ [] := by
  intro s h
  cases s with
  | nil => exact absurd rfl h
  | cons c cs =>
    rw [splitLines]
    split
    · simp
    · cases hs : splitLines cs with
      | nil => simp
      | cons l ls => simp

theorem splitLines_append_closed {l : List Char} (rest : List Char)
    (hne : l ≠ []) (hlast : l.getLast? = some '\n') (hin : '\n' ∉ l.dropLast) :
    splitLines (l ++ rest) = l :: splitLines rest := by
  induction l with
  | nil => exact absurd rfl hne
  | cons c l2 ih =>
    cases l2 with
    | nil =>
      simp only [List.getLast?_singleton, Option.some.injEq] at hlast
      subst hlast
      rw [List.cons_append, List.nil_append, splitLines, if_pos rfl]
    | cons d l3 =>
      have hc : c ≠ '\n' := by
        intro hc
        subst hc
        exact hin (by simp)
      have hin2 : '\n' ∉ (d :: l3).dropLast := by
        intro hmem
        exact hin (by simp [hmem])
      have hlast2 : (d :: l3).getLast? = some '\n' := by
        rwa [List.getLast?_cons_cons] at hlast
      rw [List.cons_append, splitLines, if_neg hc, ih (by simp) hlast2 hin2]

theorem splitLines_closed : ∀ {s : List Char}, s.getLast? = some '\n' →
    ∀ l ∈ splitLines s, l ≠ [] ∧ l.getLast? = some '\n' ∧ '\n' ∉ l.dropLast := by
  intro s
  induction s with
  | nil => intro h; exact absurd h (by simp)
  | cons c cs ih =>
    intro h l hl
    by_cases hc : c = '\n'
    · subst hc
      rw [splitLines, if_pos rfl] at hl
      rcases List.mem_cons.mp hl with rfl | hl2
      · exact ⟨by simp, by simp, by simp⟩
      · cases cs with
        | nil => simp [splitLines] at hl2
        | cons d cs2 =>
          exact ih (by rwa [List.getLast?_cons_cons] at h) l hl2
    · cases cs with
      | nil =>
        simp only [List.getLast?_singleton, Option.some.injEq] at h
        exact absurd h hc
      | cons d cs2 =>
        have h2 : (d :: cs2).getLast? = some '\n' := by rwa [List.getLast?_cons_cons] at h
        rw [splitLines, if_neg hc] at hl
        cases hs : splitLines (d :: cs2) with
        | nil => exact absurd hs (splitLines_ne_nil (by simp))
        | cons l2 ls =>
          rw [hs] at hl
          rcases List.mem_cons.mp hl with rfl | hl2
          · obtain ⟨hne2, hlast2, hin2⟩ := ih h2 l2 (by rw [hs]; exact List.mem_cons_self ..)
            refine ⟨by simp, ?_, ?_⟩
            · cases l2 with
              | nil => exact absurd rfl hne2
              | cons e l3 => rwa [List.getLast?_cons_cons]
            · cases l2 with
              | nil => exact absurd rfl hne2
              | cons e l3 =>
                intro hmem
                rw [List.dropLast_cons₂] at hmem
                rcases List.mem_cons.mp hmem with rfl | hmem2
                · exact hc rfl
                · exact hin2 hmem2
          · exact ih h2 l (by rw [hs]; exact List.mem_cons_of_mem _ hl2)

end PgTune

namespace PgTune

/-- A physical line as produced by `readlines` on a newline-terminated file. -/
def WfLine (l : List Char) : Prop :=
  l ≠ [] ∧ l.getLast? = some '\n' ∧ '\n' ∉ l.dropLast

/-- A well-formed parameter key: nonempty, whitespace-free, not starting with
`'#'` (so that a rewritten `key = value` line re-parses as itself). -/
def wfKey (k : List Char) : Bool :=
  match k with
  | [] => false
  | c :: k2 => !isSpaceHash c && k2.all notSpace

/-- A well-formed parameter value: nonempty and whitespace-free (as all
formatted calculator values are). -/
def wfVal (v : List Char) : Bool := !v.isEmpty && v.all notSpace

/-- Every key/value of the parameter set is a well-formed token. -/
def wfPairs (params : List (List Char × List Char)) : Bool :=
  params.all (fun kv => wfKey kv.1 && wfVal kv.2)

/-- The side condition the counterexample to the idempotence claim forces: on
every line that the merge rewrites, the matched `setup` text must not occur
again in the remainder of the line (Python's `str.replace` replaces all
occurrences). -/
def okLine (params : List (List Char × List Char)) (l : List Char) : Bool :=
  match matchAssign l with
  | none => true
  | some (p, k, m, v, r) =>
    match lookupP k params with
    | none => true
    | some pv => pv == v || !(decide ((p ++ k ++ m ++ v) <:+: r))

/-- How the second pass sees a line: no effect, an exact match for key `k`
(pops `k`), or a rewrite of key `k`. -/
inductive LClass where
  | pass : LClass
  | hit : List Char → LClass
  | rew : List Char → LClass
deriving DecidableEq

/-- Classify a line with respect to a parameter set, mirroring the branch the
per-line loop takes. -/
def classifyMatched (params : List (List Char × List Char)) (k v : List Char) : LClass :=
  match lookupP k params with
  | none => .pass
  | some pv => if pv = v then .hit k else .rew k

/-- Classify a line with respect to a parameter set, mirroring the branch the
per-line loop takes. -/
def classify (params : List (List Char × List Char)) (l : List Char) : LClass :=
  match matchAssign l with
  | none => .pass
  | some (_, k, _, v, _) => classifyMatched params k v

/-- The sequence of keys of the exactly-matching lines. -/
def hitsOf (params : List (List Char × List Char)) (L : List (List Char)) :
    List (List Char) :=
  L.filterMap (fun l => match classify params l with | .hit k => some k | _ => none)

theorem step_of_pass (params : List (List Char × List Char)) (today : List Char)
    (toApp : List (List Char × List Char)) (l : List Char)
    (h : classify params l = .pass) :
    step params today toApp l = some (l, toApp, [], false) := by
  unfold classify at h
  cases hm : matchAssign l with
  | none => simp [step, hm]
  | some x =>
    obtain ⟨p, k, m, v, r⟩ := x
    rw [hm] at h
    simp only [] at h
    simp only [step, hm]
    unfold classifyMatched at h
    unfold stepMatched
    cases hl : lookupP k params with
    | none => rfl
    | some pv =>
      rw [hl] at h
      simp only [] at h
      by_cases hveq : pv = v
      · rw [if_pos hveq] at h
        exact absurd h (by simp)
      · rw [if_neg hveq] at h
        exact absurd h (by simp)

theorem step_of_hit (params : List (List Char × List Char)) (today : List Char)
    (toApp : List (List Char × List Char)) (l : List Char) (k : List Char)
    (h : classify params l = .hit k) :
    step params today toApp l = (popKey k toApp).map (fun t => (l, t, [], false)) := by
  unfold classify at h
  cases hm : matchAssign l with
  | none =>
    rw [hm] at h
    simp only [] at h
    exact absurd h (by simp)
  | some x =>
    obtain ⟨p, k1, m, v, r⟩ := x
    rw [hm] at h
    simp only [] at h
    simp only [step, hm]
    unfold classifyMatched at h
    unfold stepMatched
    cases hl : lookupP k1 params with
    | none =>
      rw [hl] at h
      simp only [] at h
      exact absurd h (by simp)
    | some pv =>
      rw [hl] at h
      simp only [] at h
      simp only []
      by_cases hveq : pv = v
      · rw [if_pos hveq] at h
        injection h with h
        subst h
        rw [if_pos hveq]
      · rw [if_neg hveq] at h
        exact absurd h (by simp)

theorem lookupP_mem {k pv : List Char} : ∀ {params : List (List Char × List Char)},
    lookupP k params = some pv → (k, pv) ∈ params := by
  intro params
  induction params with
  | nil => intro h; exact Option.noConfusion h
  | cons kv rest ih =>
    obtain ⟨k1, v1⟩ := kv
    intro h
    rw [lookupP] at h
    by_cases hk : k1 = k
    · rw [if_pos hk] at h
      injection h with h
      subst hk h
      exact List.mem_cons_self ..
    · rw [if_neg hk] at h
      exact List.mem_cons_of_mem _ (ih h)

theorem lookupP_of_mem_nodup : ∀ {params : List (List Char × List Char)},
    (params.map (fun kv => kv.1)).Nodup → ∀ {k pv : List Char},
    (k, pv) ∈ params → lookupP k params = some pv := by
  intro params
  induction params with
  | nil => intro _ k pv h; simp at h
  | cons kv rest ih =>
    obtain ⟨k1, v1⟩ := kv
    intro hnd k pv h
    have hnd2 : (rest.map (fun kv => kv.1)).Nodup := by
      simp only [List.map_cons, List.nodup_cons] at hnd
      exact hnd.2
    rcases List.mem_cons.mp h with heq | hmem
    · injection heq with h1 h2
      subst h1 h2
      rw [lookupP, if_pos rfl]
    · have hk : k1 ≠ k := by
        intro hk
        subst hk
        simp only [List.map_cons, List.nodup_cons] at hnd
        exact hnd.1 (List.mem_map.mpr ⟨(k1, pv), hmem, rfl⟩)
      rw [lookupP, if_neg hk]
      exact ih hnd2 hmem

theorem popKey_isSome_of_mem {k : List Char} : ∀ {ta : List (List Char × List Char)},
    k ∈ ta.map (fun kv => kv.1) → ∃ tb, popKey k ta = some tb := by
  intro ta
  induction ta with
  | nil => intro h; simp at h
  | cons kv rest ih =>
    obtain ⟨k1, v1⟩ := kv
    intro h
    by_cases hk : k1 = k
    · exact ⟨rest, by rw [popKey, if_pos hk]⟩
    · have : k ∈ rest.map (fun kv => kv.1) := by
        simp only [List.map_cons, List.mem_cons] at h
        rcases h with heq | hmem
        · exact absurd heq.symm hk
        · exact hmem
      obtain ⟨tb, htb⟩ := ih this
      exact ⟨(k1, v1) :: tb, by rw [popKey, if_neg hk, htb]; rfl⟩

theorem popKey_keys {k : List Char} : ∀ {ta tb : List (List Char × List Char)},
    popKey k ta = some tb →
    tb.map (fun kv => kv.1) = (ta.map (fun kv => kv.1)).erase k := by
  intro ta
  induction ta with
  | nil => intro tb h; exact Option.noConfusion h
  | cons kv rest ih =>
    obtain ⟨k1, v1⟩ := kv
    intro tb h
    rw [popKey] at h
    by_cases hk : k1 = k
    · rw [if_pos hk] at h
      injection h with h
      subst h hk
      simp [List.erase_cons_head]
    · rw [if_neg hk] at h
      obtain ⟨tb2, htb2, rfl⟩ := Option.map_eq_some'.mp h
      simp only [List.map_cons]
      rw [ih htb2, List.erase_cons_tail]
      simp [hk]

theorem popKey_entry_sub {k : List Char} : ∀ {ta tb : List (List Char × List Char)},
    popKey k ta = some tb → ∀ kv ∈ tb, kv ∈ ta := by
  intro ta
  induction ta with
  | nil => intro tb h; exact Option.noConfusion h
  | cons kv0 rest ih =>
    obtain ⟨k1, v1⟩ := kv0
    intro tb h kv hkv
    rw [popKey] at h
    by_cases hk : k1 = k
    · rw [if_pos hk] at h
      injection h with h
      subst h
      exact List.mem_cons_of_mem _ hkv
    · rw [if_neg hk] at h
      obtain ⟨tb2, htb2, rfl⟩ := Option.map_eq_some'.mp h
      rcases List.mem_cons.mp hkv with rfl | hmem
      · exact List.mem_cons_self ..
      · exact List.mem_cons_of_mem _ (ih htb2 kv hmem)

end PgTune

namespace PgTune

theorem hitsOf_cons (params : List (List Char × List Char)) (l : List Char)
    (ls : List (List Char)) :
    hitsOf params (l :: ls) =
      (match classify params l with | .hit k => [k] | _ => []) ++ hitsOf params ls := by
  unfold hitsOf
  rw [List.filterMap_cons]
  cases classify params l <;> rfl

theorem mergeLoop_clean (params : List (List Char × List Char)) (today : List Char) :
    ∀ (L : List (List Char)) (ta : List (List Char × List Char)),
    (∀ l ∈ L, classify params l = .pass ∨ ∃ k, classify params l = .hit k) →
    (hitsOf params L).Nodup →
    (∀ k ∈ hitsOf params L, k ∈ ta.map (fun kv => kv.1)) →
    (ta.map (fun kv => kv.1)).Nodup →
    ∃ tb, mergeLoop params today L ta = some (L, tb, [], false) ∧
      (∀ x ∈ tb.map (fun kv => kv.1), x ∈ ta.map (fun kv => kv.1) ∧ x ∉ hitsOf params L) := by
  intro L
  induction L with
  | nil =>
    intro ta _ _ _ _
    exact ⟨ta, rfl, fun x hx => ⟨hx, by simp [hitsOf]⟩⟩
  | cons l ls ih =>
    intro ta hcl hnd hsub hta
    rcases hcl l (List.mem_cons_self ..) with hp | ⟨k, hk⟩
    · have hs := step_of_pass params today ta l hp
      have hhits : hitsOf params (l :: ls) = hitsOf params ls := by
        rw [hitsOf_cons, hp]
        rfl
      rw [hhits] at hnd hsub
      obtain ⟨tb, hm, hmem⟩ := ih ta (fun l2 h2 => hcl l2 (List.mem_cons_of_mem _ h2))
        hnd hsub hta
      refine ⟨tb, ?_, fun x hx => ?_⟩
      · simp [mergeLoop, hs, hm]
      · obtain ⟨h1, h2⟩ := hmem x hx
        exact ⟨h1, by rwa [hhits]⟩
    · have hs := step_of_hit params today ta l k hk
      have hhits : hitsOf params (l :: ls) = k :: hitsOf params ls := by
        rw [hitsOf_cons, hk]
        rfl
      have hkta : k ∈ ta.map (fun kv => kv.1) := by
        apply hsub
        rw [hhits]
        exact List.mem_cons_self ..
      obtain ⟨ta2, hpop⟩ := popKey_isSome_of_mem hkta
      have hta2keys : ta2.map (fun kv => kv.1) = (ta.map (fun kv => kv.1)).erase k :=
        popKey_keys hpop
      have hknotin : k ∉ hitsOf params ls := by
        rw [hhits] at hnd
        exact (List.nodup_cons.mp hnd).1
      obtain ⟨tb, hm, hmem⟩ := ih ta2 (fun l2 h2 => hcl l2 (List.mem_cons_of_mem _ h2))
        (by rw [hhits] at hnd; exact (List.nodup_cons.mp hnd).2)
        (by
          intro k2 hk2
          rw [hta2keys]
          have hne : k2 ≠ k := fun he => hknotin (he ▸ hk2)
          rw [List.mem_erase_of_ne hne]
          apply hsub
          rw [hhits]
          exact List.mem_cons_of_mem _ hk2)
        (by rw [hta2keys]; exact hta.erase k)
      refine ⟨tb, ?_, fun x hx => ?_⟩
      · simp [mergeLoop, hs, hpop, hm]
      · obtain ⟨h1, h2⟩ := hmem x hx
        rw [hta2keys] at h1
        have hxk : x ≠ k := (hta.mem_erase_iff.mp h1).1
        refine ⟨(hta.mem_erase_iff.mp h1).2, ?_⟩
        rw [hhits]
        intro hmem2
        rcases List.mem_cons.mp hmem2 with rfl | h3
        · exact hxk rfl
        · exact h2 h3

end PgTune

namespace PgTune

theorem not_newline_of_notSpace {xs : List Char} (h : ∀ c ∈ xs, notSpace c = true) :
    '\n' ∉ xs := by
  intro hmem
  have := h _ hmem
  simp [notSpace, isPySpace] at this

theorem annotUpd_no_newline {today v : List Char} (ht : '\n' ∉ today)
    (hv : ∀ c ∈ v, notSpace c = true) : '\n' ∉ annotUpd today v := by
  unfold annotUpd
  intro hmem
  simp only [List.mem_append, List.mem_cons] at hmem
  rcases hmem with ((((h | h) | h) | h) | h)
  · revert h; decide
  · exact ht h
  · revert h; decide
  · exact not_newline_of_notSpace hv h
  · simp at h

theorem annotAdd_no_newline {today : List Char} (ht : '\n' ∉ today) :
    '\n' ∉ annotAdd today := by
  unfold annotAdd
  intro hmem
  rcases List.mem_append.mp hmem with h | h
  · revert h; decide
  · exact ht h

theorem matchAssign_annotUpd_nl (today v : List Char) :
    matchAssign (annotUpd today v ++ ['\n']) = none := by
  have h : annotUpd today v ++ ['\n'] =
      ("#Ansible: updated by postgresql_tune on ").data ++
        (today ++ ((" (previous value: ").data ++ (v ++ [')', '\n']))) := by
    unfold annotUpd
    simp [List.append_assoc]
  rw [h]
  exact rfl

theorem matchAssign_annotAdd_nl (today : List Char) :
    matchAssign (annotAdd today ++ ['\n']) = none := by
  have h : annotAdd today ++ ['\n'] =
      ("#Ansible: added by postgresql_tune on ").data ++ (today ++ ['\n']) := by
    unfold annotAdd
    simp [List.append_assoc]
  rw [h]
  exact rfl

theorem popKey_mem_of_some {k : List Char} : ∀ {ta tb : List (List Char × List Char)},
    popKey k ta = some tb → k ∈ ta.map (fun kv => kv.1) := by
  intro ta
  induction ta with
  | nil => intro tb h; exact Option.noConfusion h
  | cons kv rest ih =>
    obtain ⟨k1, v1⟩ := kv
    intro tb h
    rw [popKey] at h
    by_cases hk : k1 = k
    · subst hk
      simp
    · rw [if_neg hk] at h
      obtain ⟨tb2, htb2, -⟩ := Option.map_eq_some'.mp h
      simp only [List.map_cons, List.mem_cons]
      exact Or.inr (ih htb2)

theorem matched_wf_facts {l p k m v r : List Char} (hw : WfLine l)
    (hm : matchAssign l = some (p, k, m, v, r)) :
    r ≠ [] ∧ r.getLast? = some '\n' ∧ '\n' ∉ r.dropLast ∧
    '\n' ∉ (p ++ k ++ m ++ v) := by
  obtain ⟨heq, hk, hks, hv, hvs, hr, hok⟩ := matchAssign_eq hm
  obtain ⟨hlne, hlast, hin⟩ := hw
  have heq2 : l = (p ++ k ++ m ++ v) ++ r := by
    rw [heq]
  have hrne : r ≠ [] := by
    rintro rfl
    rw [List.append_nil] at heq2
    have hvlast : v.getLast? = some '\n' := by
      have h1 : l.getLast? = v.getLast? := by
        rw [heq2, List.getLast?_append_of_ne_nil _ hv]
      rw [← h1, hlast]
    have : '\n' ∈ v := List.mem_of_getLast?_eq_some hvlast
    exact not_newline_of_notSpace hvs this
  have hdl : l.dropLast = (p ++ k ++ m ++ v) ++ r.dropLast := by
    rw [heq2, List.dropLast_append_of_ne_nil _ hrne]
  refine ⟨hrne, ?_, ?_, ?_⟩
  · rw [← hlast, heq2, List.getLast?_append_of_ne_nil _ hrne]
  · intro hmem
    exact hin (by rw [hdl]; exact List.mem_append.mpr (Or.inr hmem))
  · intro hmem
    exact hin (by rw [hdl]; exact List.mem_append.mpr (Or.inl hmem))

end PgTune

namespace PgTune

/-- The invariant carried by the first merge pass: every emitted physical line
either passes through untouched or is an exact `key = value` hit for a pending
parameter; the hit keys are distinct, drawn from the starting pending set and
absent from the final one, and the final pending set is the starting one minus
the hits. -/
def ExpandInv (params ta tb : List (List Char × List Char))
    (E : List (List Char)) : Prop :=
  (∀ l ∈ E, classify params l = .pass ∨ ∃ k, classify params l = .hit k) ∧
  (hitsOf params E).Nodup ∧
  (∀ x ∈ hitsOf params E,
    x ∈ ta.map (fun kv => kv.1) ∧ x ∉ tb.map (fun kv => kv.1)) ∧
  (∀ x ∈ ta.map (fun kv => kv.1),
    x ∈ tb.map (fun kv => kv.1) ∨ x ∈ hitsOf params E) ∧
  (∀ kv ∈ tb, kv ∈ ta) ∧
  (tb.map (fun kv => kv.1)).Nodup

theorem ExpandInv_pass_cons {params ta tb : List (List Char × List Char)}
    {E : List (List Char)} {l : List Char} (h : ExpandInv params ta tb E)
    (hcl : classify params l = .pass) : ExpandInv params ta tb (l :: E) := by
  obtain ⟨h1, h2, h3, h4, h5, h6⟩ := h
  have hh : hitsOf params (l :: E) = hitsOf params E := by
    rw [hitsOf_cons, hcl]
    rfl
  refine ⟨?_, ?_, ?_, ?_, h5, h6⟩
  · intro l2 hm
    rcases List.mem_cons.mp hm with rfl | hm2
    · exact Or.inl hcl
    · exact h1 l2 hm2
  · rwa [hh]
  · rw [hh]; exact h3
  · rw [hh]; exact h4

theorem ExpandInv_hit_cons {params : List (List Char × List Char)} {k : List Char}
    {ta ta2 tb : List (List Char × List Char)} {E : List (List Char)} {l : List Char}
    (hpop : popKey k ta = some ta2)
    (hnd : (ta.map (fun kv => kv.1)).Nodup)
    (h : ExpandInv params ta2 tb E)
    (hcl : classify params l = .hit k) : ExpandInv params ta tb (l :: E) := by
  obtain ⟨h1, h2, h3, h4, h5, h6⟩ := h
  have hkeys : ta2.map (fun kv => kv.1) = (ta.map (fun kv => kv.1)).erase k :=
    popKey_keys hpop
  have hkmem : k ∈ ta.map (fun kv => kv.1) := popKey_mem_of_some hpop
  have hh : hitsOf params (l :: E) = k :: hitsOf params E := by
    rw [hitsOf_cons, hcl]
    rfl
  have hknot2 : k ∉ hitsOf params E := by
    intro hx
    exact hnd.not_mem_erase (hkeys ▸ (h3 k hx).1)
  have hknotb : k ∉ tb.map (fun kv => kv.1) := by
    intro hkb
    obtain ⟨kv, hkv, hkv2⟩ := List.mem_map.mp hkb
    exact hnd.not_mem_erase (hkeys ▸ List.mem_map.mpr ⟨kv, h5 kv hkv, hkv2⟩)
  refine ⟨?_, ?_, ?_, ?_, fun kv hkv => popKey_entry_sub hpop kv (h5 kv hkv), h6⟩
  · intro l2 hm
    rcases List.mem_cons.mp hm with rfl | hm2
    · exact Or.inr ⟨k, hcl⟩
    · exact h1 l2 hm2
  · rw [hh, List.nodup_cons]
    exact ⟨hknot2, h2⟩
  · rw [hh]
    intro x hx
    rcases List.mem_cons.mp hx with rfl | h3x
    · exact ⟨hkmem, hknotb⟩
    · obtain ⟨h4x, h5x⟩ := h3 x h3x
      rw [hkeys] at h4x
      exact ⟨List.mem_of_mem_erase h4x, h5x⟩
  · rw [hh]
    intro x hx
    by_cases hxk : x = k
    · subst hxk
      exact Or.inr (List.mem_cons_self ..)
    · have hx2 : x ∈ ta2.map (fun kv => kv.1) := by
        rw [hkeys]
        exact (List.mem_erase_of_ne hxk).mpr hx
      rcases h4 x hx2 with h4x | h4x
      · exact Or.inl h4x
      · exact Or.inr (List.mem_cons_of_mem _ h4x)

end PgTune

namespace PgTune

/-- First merge pass, expanded: on well-formed input lines that satisfy the
single-occurrence side condition, the loop succeeds line by line, its output
re-splits into physical lines, and those lines satisfy `ExpandInv`. -/
theorem mergeLoop_expand (params : List (List Char × List Char)) (today : List Char)
    (hp : wfPairs params = true)
    (ht : '\n' ∉ today) :
    ∀ (L : List (List Char)) (ta : List (List Char × List Char))
      (outs : List (List Char)) (tb : List (List Char × List Char))
      (upds : List (List Char)) (ch : Bool),
    (∀ l ∈ L, WfLine l) →
    (∀ l ∈ L, okLine params l = true) →
    (ta.map (fun kv => kv.1)).Nodup →
    mergeLoop params today L ta = some (outs, tb, upds, ch) →
    ∃ E : List (List Char),
      (∀ tail : List Char, splitLines (outs.flatten ++ tail) = E ++ splitLines tail) ∧
      ExpandInv params ta tb E := by
  intro L
  induction L with
  | nil =>
    intro ta outs tb upds ch _ _ hnd hml
    rw [mergeLoop] at hml
    simp only [Option.some.injEq, Prod.mk.injEq] at hml
    obtain ⟨h1, h2, h3, h4⟩ := hml
    subst h1 h2
    refine ⟨[], fun tail => by simp, ?_, by simp [hitsOf], by simp [hitsOf],
      ?_, fun kv hkv => hkv, hnd⟩
    · intro l hl
      exact absurd hl (List.not_mem_nil _)
    · intro x hx
      exact Or.inl hx
  | cons l ls ih =>
    intro ta outs tb upds ch hwf hok hnd hml
    rw [mergeLoop] at hml
    cases hstep : step params today ta l with
    | none =>
      rw [hstep] at hml
      simp only [] at hml
      exact Option.noConfusion hml
    | some q =>
      obtain ⟨out, ta2, upd, chl⟩ := q
      rw [hstep] at hml
      simp only [] at hml
      cases hrec : mergeLoop params today ls ta2 with
      | none =>
        rw [hrec] at hml
        simp only [] at hml
        exact Option.noConfusion hml
      | some q2 =>
        obtain ⟨outs2, tb2, upds2, ch2⟩ := q2
        rw [hrec] at hml
        simp only [Option.some.injEq, Prod.mk.injEq] at hml
        obtain ⟨ho, ht2, -, -⟩ := hml
        subst ho
        have ht2s := ht2.symm
        subst ht2s
        have hwl : WfLine l := hwf l (List.mem_cons_self ..)
        cases hm : matchAssign l with
        | none =>
          have hstep2 : step params today ta l = some (l, ta, [], false) := by
            simp [step, hm]
          rw [hstep2] at hstep
          simp only [Option.some.injEq, Prod.mk.injEq] at hstep
          obtain ⟨he1, he2, -, -⟩ := hstep
          subst he1 he2
          obtain ⟨E2, hsp, hinv⟩ :=
            ih ta outs2 tb upds2 ch2 (fun l2 h2 => hwf l2 (List.mem_cons_of_mem _ h2))
              (fun l2 h2 => hok l2 (List.mem_cons_of_mem _ h2)) hnd hrec
          have hcll : classify params l = .pass := by
            unfold classify
            rw [hm]
          refine ⟨l :: E2, ?_, ExpandInv_pass_cons hinv hcll⟩
          intro tail
          obtain ⟨hlne, hllast, hlin⟩ := hwl
          rw [List.flatten_cons, List.append_assoc,
            splitLines_append_closed _ hlne hllast hlin, hsp tail, List.cons_append]
        | some x =>
          obtain ⟨p, k, m, v, r⟩ := x
          have hstepm : stepMatched params today ta l p k m v =
              some (out, ta2, upd, chl) := by
            rw [← hstep]
            simp [step, hm]
          cases hl : lookupP k params with
          | none =>
            have hstep2 : stepMatched params today ta l p k m v =
                some (l, ta, [], false) := by
              simp [stepMatched, hl]
            rw [hstep2] at hstepm
            simp only [Option.some.injEq, Prod.mk.injEq] at hstepm
            obtain ⟨he1, he2, -, -⟩ := hstepm
            subst he1 he2
            obtain ⟨E2, hsp, hinv⟩ :=
              ih ta outs2 tb upds2 ch2 (fun l2 h2 => hwf l2 (List.mem_cons_of_mem _ h2))
                (fun l2 h2 => hok l2 (List.mem_cons_of_mem _ h2)) hnd hrec
            have hcll : classify params l = .pass := by
              unfold classify
              rw [hm]
              simp only []
              unfold classifyMatched
              rw [hl]
            refine ⟨l :: E2, ?_, ExpandInv_pass_cons hinv hcll⟩
            intro tail
            obtain ⟨hlne, hllast, hlin⟩ := hwl
            rw [List.flatten_cons, List.append_assoc,
              splitLines_append_closed _ hlne hllast hlin, hsp tail, List.cons_append]
          | some pv =>
            unfold stepMatched at hstepm
            rw [hl] at hstepm
            simp only [] at hstepm
            by_cases hveq : pv = v
            · rw [if_pos hveq] at hstepm
              obtain ⟨ta2', hpop, heq⟩ := Option.map_eq_some'.mp hstepm
              simp only [Prod.mk.injEq] at heq
              obtain ⟨he1, he2, -, -⟩ := heq
              subst he1 he2
              have hta2keys : ta2'.map (fun kv => kv.1) =
                  (ta.map (fun kv => kv.1)).erase k := popKey_keys hpop
              obtain ⟨E2, hsp, hinv⟩ :=
                ih ta2' outs2 tb upds2 ch2
                  (fun l2 h2 => hwf l2 (List.mem_cons_of_mem _ h2))
                  (fun l2 h2 => hok l2 (List.mem_cons_of_mem _ h2))
                  (by rw [hta2keys]; exact hnd.erase k) hrec
              have hcll : classify params l = .hit k := by
                unfold classify
                rw [hm]
                simp only []
                unfold classifyMatched
                rw [hl]
                simp only []
                rw [if_pos hveq]
              refine ⟨l :: E2, ?_, ExpandInv_hit_cons hpop hnd hinv hcll⟩
              intro tail
              obtain ⟨hlne, hllast, hlin⟩ := hwl
              rw [List.flatten_cons, List.append_assoc,
                splitLines_append_closed _ hlne hllast hlin, hsp tail, List.cons_append]
            · rw [if_neg hveq] at hstepm
              obtain ⟨ta2', hpop, heq⟩ := Option.map_eq_some'.mp hstepm
              simp only [Prod.mk.injEq] at heq
              obtain ⟨he1, he2, -, -⟩ := heq
              subst he1 he2
              obtain ⟨heql, hkne, hks, hvne, hvs, hr, hokr⟩ := matchAssign_eq hm
              obtain ⟨hrne, hrlast, hrin, hsin⟩ := matched_wf_facts hwl hm
              have hinf : ¬ (p ++ k ++ m ++ v) <:+: r := by
                have hokl := hok l (List.mem_cons_self ..)
                unfold okLine at hokl
                rw [hm] at hokl
                simp only [] at hokl
                rw [hl] at hokl
                simp only [] at hokl
                simp only [Bool.or_eq_true, beq_iff_eq, Bool.not_eq_true',
                  decide_eq_false_iff_not] at hokl
                rcases hokl with h4 | h4
                · exact absurd h4 hveq
                · exact h4
              have hrepl : pyReplace l (p ++ k ++ m ++ v) (newAssign k pv) =
                  newAssign k pv ++ r := by
                rw [heql]
                exact pyReplace_seed _ (by simp [hkne]) hinf
              have hkv_mem : (k, pv) ∈ params := lookupP_mem hl
              have hkwf : wfKey k = true ∧ wfVal pv = true := by
                have h4 := List.all_eq_true.mp hp _ hkv_mem
                simpa using h4
              obtain ⟨c0, k2, rfl⟩ : ∃ c0 k2, k = c0 :: k2 := by
                cases k with
                | nil => exact absurd rfl hkne
                | cons c0 k2 => exact ⟨c0, k2, rfl⟩
              have hkparts : isSpaceHash c0 = false ∧ ∀ c ∈ k2, notSpace c = true := by
                have h4 := hkwf.1
                simp only [wfKey, Bool.and_eq_true, Bool.not_eq_true',
                  List.all_eq_true] at h4
                exact h4
              have hpvparts : pv ≠ [] ∧ ∀ c ∈ pv, notSpace c = true := by
                have h4 := hkwf.2
                simp only [wfVal, Bool.and_eq_true, Bool.not_eq_true',
                  List.isEmpty_eq_false, List.all_eq_true] at h4
                exact h4
              have hline2 : matchAssign (newAssign (c0 :: k2) pv ++ r) =
                  some ([], c0 :: k2, (" = ").data, pv, r) :=
                matchAssign_clean c0 k2 pv r hkparts.1 hkparts.2 hpvparts.1 hpvparts.2 hr
                  (by
                    unfold dotStarOk
                    simp only [List.all_eq_true]
                    intro c hc
                    simp only [bne_iff_ne, ne_eq]
                    intro he
                    exact hrin (he ▸ hc))
              have hcl2 : classify params (newAssign (c0 :: k2) pv ++ r) =
                  .hit (c0 :: k2) := by
                unfold classify
                rw [hline2]
                simp only []
                unfold classifyMatched
                rw [hl]
                simp
              have hcl1 : classify params (annotUpd today v ++ ['\n']) = .pass := by
                unfold classify
                rw [matchAssign_annotUpd_nl]
              have hwl1 : WfLine (annotUpd today v ++ ['\n']) := by
                refine ⟨by simp, by simp, ?_⟩
                rw [List.dropLast_concat]
                exact annotUpd_no_newline ht hvs
              have hnl_new : '\n' ∉ newAssign (c0 :: k2) pv := by
                unfold newAssign
                intro hmem
                simp only [List.mem_append] at hmem
                rcases hmem with (h4 | h4) | h4
                · exact hsin (List.mem_append.mpr (Or.inl (List.mem_append.mpr
                    (Or.inl (List.mem_append.mpr (Or.inr h4))))))
                · revert h4; decide
                · exact not_newline_of_notSpace hpvparts.2 h4
              have hwl2 : WfLine (newAssign (c0 :: k2) pv ++ r) := by
                refine ⟨by simp [hrne], ?_, ?_⟩
                · rw [List.getLast?_append_of_ne_nil _ hrne]
                  exact hrlast
                · rw [List.dropLast_append_of_ne_nil _ hrne]
                  intro hmem
                  rcases List.mem_append.mp hmem with h4 | h4
                  · exact hnl_new h4
                  · exact hrin h4
              have hta2keys : ta2'.map (fun kv => kv.1) =
                  (ta.map (fun kv => kv.1)).erase (c0 :: k2) := popKey_keys hpop
              obtain ⟨E2, hsp, hinv⟩ :=
                ih ta2' outs2 tb upds2 ch2
                  (fun l2 h2 => hwf l2 (List.mem_cons_of_mem _ h2))
                  (fun l2 h2 => hok l2 (List.mem_cons_of_mem _ h2))
                  (by rw [hta2keys]; exact hnd.erase _) hrec
              refine ⟨(annotUpd today v ++ ['\n']) :: (newAssign (c0 :: k2) pv ++ r) :: E2,
                ?_, ExpandInv_pass_cons (ExpandInv_hit_cons hpop hnd hinv hcl2) hcl1⟩
              intro tail
              have harr : (annotUpd today v ++
                    '\n' :: (newAssign (c0 :: k2) pv ++ r)) ++ outs2.flatten ++ tail =
                  (annotUpd today v ++ ['\n']) ++
                    ((newAssign (c0 :: k2) pv ++ r) ++ (outs2.flatten ++ tail)) := by
                simp [List.append_assoc]
              rw [List.flatten_cons, hrepl, harr,
                splitLines_append_closed _ hwl1.1 hwl1.2.1 hwl1.2.2,
                splitLines_append_closed _ hwl2.1 hwl2.2.1 hwl2.2.2, hsp tail]
              rfl

end PgTune

namespace PgTune

theorem wfKey_no_newline {k : List Char} (h : wfKey k = true) : '\n' ∉ k := by
  cases k with
  | nil => simp [wfKey] at h
  | cons c0 k2 =>
    simp only [wfKey, Bool.and_eq_true, Bool.not_eq_true', List.all_eq_true] at h
    intro hmem
    rcases List.mem_cons.mp hmem with he | hm2
    · have hsp : isSpaceHash '\n' = true := by decide
      rw [he] at hsp
      rw [h.1] at hsp
      exact Bool.noConfusion hsp
    · exact not_newline_of_notSpace h.2 hm2

theorem wfVal_no_newline {v : List Char} (h : wfVal v = true) : '\n' ∉ v := by
  simp only [wfVal, Bool.and_eq_true, Bool.not_eq_true', List.isEmpty_eq_false,
    List.all_eq_true] at h
  exact not_newline_of_notSpace h.2

/-- A freshly appended `key = value` physical line re-parses as an exact hit for
its own key. -/
theorem classify_param_line {params : List (List Char × List Char)}
    (hpnd : (params.map (fun kv => kv.1)).Nodup)
    (hp : wfPairs params = true) {k v : List Char} (hkv : (k, v) ∈ params) :
    classify params (k ++ (" = ").data ++ v ++ ['\n']) = .hit k := by
  have hkwf : wfKey k = true ∧ wfVal v = true := by
    have h4 := List.all_eq_true.mp hp _ hkv
    simpa using h4
  obtain ⟨c0, k2, rfl⟩ : ∃ c0 k2, k = c0 :: k2 := by
    cases k with
    | nil => simp [wfKey] at hkwf
    | cons c0 k2 => exact ⟨c0, k2, rfl⟩
  have hkparts : isSpaceHash c0 = false ∧ ∀ c ∈ k2, notSpace c = true := by
    have h4 := hkwf.1
    simp only [wfKey, Bool.and_eq_true, Bool.not_eq_true', List.all_eq_true] at h4
    exact h4
  have hvparts : v ≠ [] ∧ ∀ c ∈ v, notSpace c = true := by
    have h4 := hkwf.2
    simp only [wfVal, Bool.and_eq_true, Bool.not_eq_true', List.isEmpty_eq_false,
      List.all_eq_true] at h4
    exact h4
  have hline : matchAssign ((c0 :: k2) ++ (" = ").data ++ v ++ ['\n']) =
      some ([], c0 :: k2, (" = ").data, v, ['\n']) :=
    matchAssign_clean c0 k2 v ['\n'] hkparts.1 hkparts.2 hvparts.1 hvparts.2
      (Or.inr ⟨'\n', [], rfl, by decide⟩) (by decide)
  have hl : lookupP (c0 :: k2) params = some v := lookupP_of_mem_nodup hpnd hkv
  unfold classify
  rw [hline]
  simp only []
  unfold classifyMatched
  rw [hl]
  simp

/-- Expansion of the append phase: the lines appended for the still-pending
parameters re-split into physical lines, alternating annotation comments
(passes) and fresh assignments (exact hits), whose hit keys are exactly the
pending keys in order. -/
theorem appendExpand (params : List (List Char × List Char)) (today : List Char)
    (hp : wfPairs params = true)
    (hpnd : (params.map (fun kv => kv.1)).Nodup)
    (ht : '\n' ∉ today) :
    ∀ (tb : List (List Char × List Char)), (∀ kv ∈ tb, kv ∈ params) →
    ∃ A : List (List Char),
      (∀ tail : List Char,
        splitLines ((tb.map (fun kv =>
          annotAdd today ++ '\n' :: (kv.1 ++ (" = ").data ++ kv.2 ++ ['\n']))).flatten
            ++ tail) = A ++ splitLines tail) ∧
      (∀ l ∈ A, classify params l = .pass ∨ ∃ k, classify params l = .hit k) ∧
      hitsOf params A = tb.map (fun kv => kv.1) := by
  intro tb
  induction tb with
  | nil =>
    intro _
    exact ⟨[], fun tail => by simp, fun l hl => absurd hl (List.not_mem_nil _),
      by simp [hitsOf]⟩
  | cons kv tbs ih =>
    intro hsub
    obtain ⟨A2, hsp, hcl, hhits⟩ := ih (fun kv2 h2 => hsub kv2 (List.mem_cons_of_mem _ h2))
    have hkv : kv ∈ params := hsub kv (List.mem_cons_self ..)
    have hkwf : wfKey kv.1 = true ∧ wfVal kv.2 = true := by
      have h4 := List.all_eq_true.mp hp _ hkv
      simpa using h4
    have hcl1 : classify params (annotAdd today ++ ['\n']) = .pass := by
      unfold classify
      rw [matchAssign_annotAdd_nl]
    have hcl2 : classify params (kv.1 ++ (" = ").data ++ kv.2 ++ ['\n']) = .hit kv.1 := by
      have := classify_param_line hpnd hp (k := kv.1) (v := kv.2) (by simpa using hkv)
      exact this
    have hwl1 : WfLine (annotAdd today ++ ['\n']) := by
      refine ⟨by simp, by simp, ?_⟩
      rw [List.dropLast_concat]
      exact annotAdd_no_newline ht
    have hwl2 : WfLine (kv.1 ++ (" = ").data ++ kv.2 ++ ['\n']) := by
      refine ⟨by simp, List.getLast?_concat _, ?_⟩
      rw [List.dropLast_concat]
      intro hmem
      simp only [List.mem_append] at hmem
      rcases hmem with (h4 | h4) | h4
      · exact wfKey_no_newline hkwf.1 h4
      · revert h4; decide
      · exact wfVal_no_newline hkwf.2 h4
    refine ⟨(annotAdd today ++ ['\n']) :: (kv.1 ++ (" = ").data ++ kv.2 ++ ['\n']) :: A2,
      ?_, ?_, ?_⟩
    · intro tail
      have harr : (annotAdd today ++
            '\n' :: (kv.1 ++ (" = ").data ++ kv.2 ++ ['\n'])) ++
              (tbs.map (fun kv =>
                annotAdd today ++ '\n' :: (kv.1 ++ (" = ").data ++ kv.2 ++ ['\n']))).flatten
              ++ tail =
          (annotAdd today ++ ['\n']) ++
            ((kv.1 ++ (" = ").data ++ kv.2 ++ ['\n']) ++
              ((tbs.map (fun kv =>
                annotAdd today ++ '\n' :: (kv.1 ++ (" = ").data ++ kv.2 ++ ['\n']))).flatten
                ++ tail)) := by
        simp [List.append_assoc]
      rw [List.map_cons, List.flatten_cons, harr,
        splitLines_append_closed _ hwl1.1 hwl1.2.1 hwl1.2.2,
        splitLines_append_closed _ hwl2.1 hwl2.2.1 hwl2.2.2, hsp tail]
      rfl
    · intro l hl
      rcases List.mem_cons.mp hl with rfl | hl2
      · exact Or.inl hcl1
      rcases List.mem_cons.mp hl2 with rfl | hl3
      · exact Or.inr ⟨kv.1, hcl2⟩
      · exact hcl l hl3
    · rw [hitsOf_cons, hcl1, hitsOf_cons, hcl2, hhits]
      rfl

end PgTune

namespace PgTune

/-- C1 (amended).  Merging is idempotent under the side conditions that make
the first pass well-behaved: the parameter keys/values are well-formed distinct
tokens, the timestamp contains no newline, the file content is newline-
terminated, and on every line the merge rewrites, the matched `setup` text does
not recur in the remainder of the line.  Then a second merge of the first
merge's output reports no change: `changed = false` and no updated or added
keys. -/
theorem c1_idempotent_amended
    (params : List (List Char × List Char)) (content t1 t2 : List Char)
    (r1 : MergeResult)
    (hp : wfPairs params = true)
    (hpnd : (params.map (fun kv => kv.1)).Nodup)
    (ht1 : '\n' ∉ t1)
    (hce : content.getLast? = some '\n')
    (hok : ∀ l ∈ splitLines content, okLine params l = true)
    (h1 : merge (splitLines content) params t1 = some r1) :
    ∃ r2, merge (splitLines r1.newLines.flatten) params t2 = some r2 ∧
      r2.changed = false ∧ r2.updatedKeys = [] ∧ r2.addedKeys = [] := by
  rw [merge] at h1
  cases hml : mergeLoop params t1 (splitLines content) params with
  | none =>
    rw [hml] at h1
    simp only [] at h1
    exact Option.noConfusion h1
  | some q =>
    obtain ⟨outs, toApp, upds, ch⟩ := q
    rw [hml] at h1
    simp only [Option.some.injEq] at h1
    have hNL : r1.newLines = outs ++ toApp.map (fun kv =>
        annotAdd t1 ++ '\n' :: (kv.1 ++ (" = ").data ++ kv.2 ++ ['\n'])) := by
      rw [← h1]
    obtain ⟨E, hspE, hinvE⟩ :=
      mergeLoop_expand params t1 hp ht1 (splitLines content) params outs toApp upds ch
        (fun l hl => splitLines_closed hce l hl) hok hpnd hml
    obtain ⟨h1E, h2E, h3E, h4E, h5E, h6E⟩ := hinvE
    obtain ⟨A, hspA, hclA, hhitsA⟩ := appendExpand params t1 hp hpnd ht1 toApp h5E
    have hA : splitLines ((toApp.map (fun kv =>
        annotAdd t1 ++ '\n' :: (kv.1 ++ (" = ").data ++ kv.2 ++ ['\n']))).flatten) = A := by
      have h5 := hspA []
      rw [List.append_nil] at h5
      rw [h5, show splitLines ([] : List Char) = [] from rfl, List.append_nil]
    have hsplit : splitLines r1.newLines.flatten = E ++ A := by
      rw [hNL, List.flatten_append, hspE, hA]
    have hfm : hitsOf params (E ++ A) = hitsOf params E ++ hitsOf params A := by
      unfold hitsOf
      rw [List.filterMap_append]
    obtain ⟨tb2, hml2, htb2⟩ := mergeLoop_clean params t2 (E ++ A) params
      (by
        intro l hl
        rcases List.mem_append.mp hl with h | h
        · exact h1E l h
        · exact hclA l h)
      (by
        rw [hfm, hhitsA]
        exact h2E.append h6E (fun a ha hb => (h3E a ha).2 hb))
      (by
        rw [hfm, hhitsA]
        intro k hk
        rcases List.mem_append.mp hk with h | h
        · exact (h3E k h).1
        · obtain ⟨kv, hkv, hke⟩ := List.mem_map.mp h
          exact List.mem_map.mpr ⟨kv, h5E kv hkv, hke⟩)
      hpnd
    have htb2nil : tb2 = [] := by
      cases tb2 with
      | nil => rfl
      | cons kv t =>
        have hk : kv.1 ∈ (kv :: t).map (fun kv => kv.1) := by simp
        obtain ⟨hkp, hknot⟩ := htb2 kv.1 hk
        rcases h4E kv.1 hkp with hin | hin
        · exact absurd (by
            rw [hfm, hhitsA]
            exact List.mem_append.mpr (Or.inr hin)) hknot
        · exact absurd (by
            rw [hfm]
            exact List.mem_append.mpr (Or.inl hin)) hknot
    subst htb2nil
    rw [hsplit, merge, hml2]
    exact ⟨_, rfl, rfl, rfl, rfl⟩

end PgTune

namespace PgTune

/-- C1 witness: a concrete run of the amended idempotence theorem on a
one-line configuration file whose `shared_buffers` value gets rewritten. -/
theorem c1_amended_witness :
    (wfPairs [(("shared_buffers").data, ("2GB").data)] = true ∧
      (([(("shared_buffers").data, ("2GB").data)]).map (fun kv => kv.1)).Nodup ∧
      '\n' ∉ ("2018-01-01").data ∧
      (("shared_buffers = 128MB\n").data).getLast? = some '\n' ∧
      (∀ l ∈ splitLines ("shared_buffers = 128MB\n").data,
        okLine [(("shared_buffers").data, ("2GB").data)] l = true) ∧
      merge (splitLines ("shared_buffers = 128MB\n").data)
        [(("shared_buffers").data, ("2GB").data)] ("2018-01-01").data = some
          { newLines := [("#Ansible: updated by postgresql_tune on 2018-01-01 (previous value: 128MB)\nshared_buffers = 2GB\n").data]
            updatedKeys := [("shared_buffers").data]
            addedKeys := []
            changed := true }) ∧
    ∃ r2, merge (splitLines
        ([("#Ansible: updated by postgresql_tune on 2018-01-01 (previous value: 128MB)\nshared_buffers = 2GB\n").data] : List (List Char)).flatten)
        [(("shared_buffers").data, ("2GB").data)] ("2019-06-30").data = some r2 ∧
      r2.changed = false ∧ r2.updatedKeys = [] ∧ r2.addedKeys = [] :=
  ⟨⟨rfl, by simp, by decide, rfl, by decide, rfl⟩,
    c1_idempotent_amended [(("shared_buffers").data, ("2GB").data)]
      (("shared_buffers = 128MB\n").data) (("2018-01-01").data) (("2019-06-30").data)
      { newLines := [("#Ansible: updated by postgresql_tune on 2018-01-01 (previous value: 128MB)\nshared_buffers = 2GB\n").data]
        updatedKeys := [("shared_buffers").data]
        addedKeys := []
        changed := true }
      rfl (by simp) (by decide) rfl (by decide) rfl⟩

end PgTune
